import Mathlib

/-!
# Verification of the vsc-task-view parsing core

A shallow embedding of the markdown plan parser (`src/planParser.ts`) and the
mtime-based plan cache (`src/planCache.ts`) of the `codrstudio/vsc-task-view`
repository, together with proofs about the embedded functions.

Modelling conventions:
* The markdown-it tokenizer is an external collaborator; `parsePlan` is
  therefore embedded as a function of the token stream it produces (plus the
  raw content, which the source also inspects for the title line).
* JavaScript strings are modelled as Lean `String`s.  The string operations
  the source uses (`startsWith`, `includes`, `trim`, `substring`, prefix
  stripping, splitting) are implemented over the character list `String.data`
  so that all definitions evaluate inside the kernel.  JavaScript `\s` is
  modelled by `Char.isWhitespace`.
* JavaScript numbers holding integers (levels, list depth, mtimeMs) are
  modelled as `Int` (or `Nat` for line counters, which never go negative).
* In-place mutation of the item tree (marking, filtering, aggregation,
  the stack-based hierarchy builder whose frames alias `item.children`)
  is translated into explicit rebuilding of the tree; the frame of the
  hierarchy builder stores the children accumulated so far for its owner
  item, and merging a popped frame writes that accumulator back into the
  owner, which is the last element of the accumulator below.
-/

/-! ## Character-level string operations (JavaScript string semantics) -/

/-- `listLead p s` : the char list `p` is a leading segment of `s`. -/
def listLead : List Char → List Char → Bool
  | [], _ => true
  | _ :: _, [] => false
  | a :: as, b :: bs => a == b && listLead as bs

/-- JavaScript `s.startsWith(p)`. -/
def strStarts (p s : String) : Bool := listLead p.data s.data

/-- Remove leading and trailing whitespace from a char list. -/
def trimChars (l : List Char) : List Char :=
  ((l.dropWhile Char.isWhitespace).reverse.dropWhile Char.isWhitespace).reverse

/-- JavaScript `s.trim()`. -/
def strTrim (s : String) : String := ⟨trimChars s.data⟩

/-- JavaScript `s.substring(n)` / dropping `n` leading characters. -/
def strDrop (s : String) (n : Nat) : String := ⟨s.data.drop n⟩

/-- JavaScript `hay.includes(needle)` (substring containment). -/
def strIncludes (needle hay : String) : Bool :=
  (List.range (hay.data.length + 1)).any (fun i => listLead needle.data (hay.data.drop i))

/-- JavaScript `parseInt` on the strings fed to it by the source
(`token.tag.substring(1)`, i.e. the digits of an `hN` tag): the value of the
leading digit run, `none` (`NaN`) when the string does not start with a digit. -/
def leadingNat (s : String) : Option Nat :=
  let ds := s.data.takeWhile Char.isDigit
  if ds.isEmpty then none else some (ds.foldl (fun a c => a * 10 + (c.toNat - 48)) 0)

/-! ## Data model (`src/types.ts`) -/

/-- `ItemType` from `src/types.ts`. -/
inductive ItemType : Type where
  | heading
  | task
deriving DecidableEq, Repr

/-- `TaskState` from `src/types.ts` (4-state set of the `src/` generation). -/
inductive TaskState : Type where
  | pending
  | done
  | inProgress
  | blocked
deriving DecidableEq, Repr

/-- `AggregatedStatus` from `src/types.ts`; the source value `Partial` is
spelled `partialDone` here. -/
inductive AggregatedStatus : Type where
  | done
  | partialDone
  | pending
deriving DecidableEq, Repr

/-- The per-state counters of `ParsedPlan.stateCount`. -/
structure StateCount : Type where
  pending : Nat
  done : Nat
  inProgress : Nat
  blocked : Nat
deriving DecidableEq, Repr

/-- `HierarchyItem` from `src/types.ts`.  The optional fields `state`,
`aggregatedStatus` and `hasTaskDescendants` are `Option`s (`none` models a
field that is absent / `undefined`). -/
inductive Item : Type where
  | mk (id : String) (itype : ItemType) (text : String) (state : Option TaskState)
      (aggregatedStatus : Option AggregatedStatus) (line : Nat) (level : Int)
      (children : List Item) (hasTaskDescendants : Option Bool) : Item

def Item.id : Item → String
  | .mk v _ _ _ _ _ _ _ _ => v

def Item.itype : Item → ItemType
  | .mk _ v _ _ _ _ _ _ _ => v

def Item.text : Item → String
  | .mk _ _ v _ _ _ _ _ _ => v

def Item.state : Item → Option TaskState
  | .mk _ _ _ v _ _ _ _ _ => v

def Item.aggregatedStatus : Item → Option AggregatedStatus
  | .mk _ _ _ _ v _ _ _ _ => v

def Item.line : Item → Nat
  | .mk _ _ _ _ _ v _ _ _ => v

def Item.level : Item → Int
  | .mk _ _ _ _ _ _ v _ _ => v

def Item.children : Item → List Item
  | .mk _ _ _ _ _ _ _ v _ => v

def Item.hasTaskDescendants : Item → Option Bool
  | .mk _ _ _ _ _ _ _ _ v => v

/-- `ParsedPlan` from `src/types.ts`. -/
structure ParsedPlan : Type where
  title : String
  subtitle : String
  filePath : String
  tasks : List Item
  totalCount : Nat
  stateCount : StateCount

/-- `CacheEntry` from `src/types.ts` (`mtimeMs` modelled as `Int`). -/
structure CacheEntry : Type where
  mtime : Int
  parsed : ParsedPlan

/-! ## Token model (markdown-it collaborator contract)

Only the token fields the parser reads are modelled: `type`, `tag`, `map`
(source line span), `attrs`, `content` and, for inline tokens, the list of
inline child nodes with their own `type` and `content`. -/

/-- An inline child node of an `inline` token (`text`, `html_inline`, ...). -/
structure InlineNode : Type where
  ntype : String
  content : String
deriving DecidableEq, Repr

/-- A markdown-it block token as consumed by `parsePlan`. -/
structure Token : Type where
  ttype : String
  tag : String
  map : Option (Nat × Nat)
  attrs : Option (List (String × String))
  content : String
  children : Option (List InlineNode)
deriving DecidableEq, Repr

/-! ## Checklist extractor (`parsePlan` main token loop, planParser.ts:29-171) -/

/-- The mutable state of the extraction loop: the `flatItems` array, the
`listDepth` counter and the `lineCounter` fallback. -/
structure ExtractState : Type where
  flatItems : List (Item × Int)
  listDepth : Int
  lineCounter : Nat

/-- `token.attrs?.some(([key, val]) => key === 'class' && val.includes('task-list-item'))`. -/
def hasTaskClass (t : Token) : Bool :=
  match t.attrs with
  | none => false
  | some as => as.any (fun kv => kv.1 == "class" && strIncludes "task-list-item" kv.2)

/-- The backwards scan of `flatItems` for the last `Heading` entry
(planParser.ts:132-138): its stored `level`, or `0` if there is none. -/
def lastHeadingLevel (l : List (Item × Int)) : Int :=
  match l.reverse.find? (fun p => p.1.itype == ItemType.heading) with
  | some p => p.2
  | none => 0

/-- `${filePath}:${lineNumber}`. -/
def mkItemId (filePath : String) (line : Nat) : String :=
  filePath ++ ":" ++ Nat.repr line

/-- `.filter(c => c.type !== 'html_inline').map(c => c.content).join('').trim()`. -/
def pluginTaskText (cs : List InlineNode) : String :=
  strTrim (String.join ((cs.filter (fun c => !(c.ntype == "html_inline"))).map (fun c => c.content)))

/-- The `(state, text)` classification of a `list_item_open` token whose
`inline` token is `ct` with children `cs` (planParser.ts:81-124): the plugin
path reads the checkbox `html_inline` element, the custom path matches the
`[-]` and `[!]` leading markers. -/
def classifyListItem (t : Token) (ct : Token) (cs : List InlineNode) :
    Option TaskState × String :=
  if hasTaskClass t then
    let inputChild := cs.find? (fun c =>
      c.ntype == "html_inline" && strIncludes "task-list-item-checkbox" c.content)
    let s : Option TaskState :=
      match inputChild with
      | some ic => if strIncludes "checked=\"\"" ic.content then some .done else some .pending
      | none => none
    (s, pluginTaskText cs)
  else
    let fullText := ct.content
    if strStarts "[-]" fullText then (some .inProgress, strTrim (strDrop fullText 3))
    else if strStarts "[!]" fullText then (some .blocked, strTrim (strDrop fullText 3))
    else (none, "")

/-- One iteration of the extraction loop (planParser.ts:33-171) on token `t`,
with `next1 = tokens[i+1]` and `next2 = tokens[i+2]`.  The four `if` blocks of
the source (heading, list open, list close, list item) test disjoint token
types and are translated as sequential state updates; `lineCounter` is
incremented at the end of the iteration. -/
def processToken (fp : String) (t : Token) (next1 next2 : Option Token)
    (st : ExtractState) : ExtractState :=
  let st1 :=
    if t.ttype == "heading_open" then
      match leadingNat (strDrop t.tag 1) with
      | some hl =>
        if 2 ≤ hl then
          match next1 with
          | some ct =>
            if ct.ttype == "inline" then
              let ln := match t.map with
                | some m => m.1
                | none => st.lineCounter
              { st with flatItems := st.flatItems ++
                  [(Item.mk (mkItemId fp ln) ItemType.heading ct.content none none ln
                      (hl : Int) [] none, (hl : Int))] }
            else st
          | none => st
        else st
      | none => st
    else st
  let st2 :=
    if t.ttype == "bullet_list_open" || t.ttype == "ordered_list_open" then
      { st1 with listDepth := st1.listDepth + 1 }
    else st1
  let st3 :=
    if t.ttype == "bullet_list_close" || t.ttype == "ordered_list_close" then
      { st2 with listDepth := st2.listDepth - 1 }
    else st2
  let st4 :=
    if t.ttype == "list_item_open" then
      match next2 with
      | some ct =>
        if ct.ttype == "inline" then
          match ct.children with
          | some cs =>
            match classifyListItem t ct cs with
            | (some s, tx) =>
              if tx == "" then st3
              else
                let ln := match t.map with
                  | some m => m.1
                  | none => st3.lineCounter
                let hl := lastHeadingLevel st3.flatItems
                let lvl := hl + st3.listDepth
                { st3 with flatItems := st3.flatItems ++
                    [(Item.mk (mkItemId fp ln) ItemType.task tx (some s) none ln lvl [] none,
                      lvl)] }
            | (none, _) => st3
          | none => st3
        else st3
      | none => st3
    else st3
  { st4 with lineCounter := st4.lineCounter + 1 }

/-- The extraction loop over the token list; each token is processed with the
two following tokens as lookahead. -/
def extractLoop (fp : String) : List Token → ExtractState → ExtractState
  | [], st => st
  | t :: rest, st =>
      extractLoop fp rest (processToken fp t rest.head? (rest.drop 1).head? st)

/-- The initial extraction state (`flatItems = []`, `listDepth = 0`,
`lineCounter = 0`). -/
def initExtract : ExtractState := ⟨[], 0, 0⟩

/-- The flat `(item, level)` list produced by the extractor for a token
stream. -/
def extractFlat (fp : String) (tokens : List Token) : List (Item × Int) :=
  (extractLoop fp tokens initExtract).flatItems

/-! ## Hierarchy builder (`buildHierarchy`, planParser.ts:239-262)

The source keeps a stack of `{level, children}` frames whose `children`
arrays alias the `children` array of the frame's owner item (the sentinel
frame owns the root list).  Here a frame stores the accumulated children
explicitly; popping a frame writes its accumulator back into its owner,
which is the last element of the accumulator of the frame below.  The stack
is a list with the top frame first. -/

/-- A stack frame of `buildHierarchy`. -/
structure Frame : Type where
  level : Int
  acc : List Item

/-- Replace the `children` of the last item of `acc` by `newCs` (writing a
popped frame's accumulator back into its owner item). -/
def setLastChildren : List Item → List Item → List Item
  | [], _ => []
  | [Item.mk i ty tx s a ln lv _ h], newCs => [Item.mk i ty tx s a ln lv newCs h]
  | x :: y :: rest, newCs => x :: setLastChildren (y :: rest) newCs

/-- Pop the top frame into the frame below it. -/
def mergeTop (top below : Frame) : Frame :=
  ⟨below.level, setLastChildren below.acc top.acc⟩

/-- `while (stack.length > 1 && stack[stack.length-1].level >= level) stack.pop()`. -/
def collapseStack : List Frame → Int → List Frame
  | f :: g :: rest, lvl =>
      if lvl ≤ f.level then collapseStack (mergeTop f g :: rest) lvl else f :: g :: rest
  | s, _ => s
termination_by s _ => s.length

/-- One step of `buildHierarchy` on an incoming `(item, level)` pair: collapse
the stack, append the item to the children of the new top frame, push a fresh
frame for the item (seeded with the item's own `children` array). -/
def buildStep (stack : List Frame) (p : Item × Int) : List Frame :=
  match collapseStack stack p.2 with
  | [] => []
  | f :: rest => ⟨p.2, p.1.children⟩ :: ⟨f.level, f.acc ++ [p.1]⟩ :: rest

/-- Collapse the whole remaining stack down to one frame (in the source this
is implicit: all arrays alias the items' `children`, so the root list is
already complete when the loop ends). -/
def collapseAll : List Frame → Frame
  | [] => ⟨0, []⟩
  | [f] => f
  | f :: g :: rest => collapseAll (mergeTop f g :: rest)
termination_by s => s.length

/-- `buildHierarchy` (planParser.ts:239-262). -/
def buildHierarchy (flat : List (Item × Int)) : List Item :=
  (collapseAll (flat.foldl buildStep [⟨0, []⟩])).acc

/-! ## Task-descendant marking (`markTaskDescendants`, planParser.ts:269-295) -/

mutual

/-- The body of the `for` loop of `markTaskDescendants` for one item:
the rebuilt item and its contribution to `hasAnyTasks`. -/
def markItem : Item → Item × Bool
  | .mk i ty tx s a ln lv cs _ =>
    if ty == ItemType.task then
      let cs2 := if cs.length > 0 then (markTaskDescendants cs).1 else cs
      (.mk i ty tx s a ln lv cs2 (some true), true)
    else if cs.length > 0 then
      let r := markTaskDescendants cs
      (.mk i ty tx s a ln lv r.1 (some r.2), r.2)
    else (.mk i ty tx s a ln lv cs (some false), false)

/-- `markTaskDescendants` (planParser.ts:269-295): the marked forest and the
returned `hasAnyTasks` flag. -/
def markTaskDescendants : List Item → List Item × Bool
  | [] => ([], false)
  | x :: xs =>
    let rx := markItem x
    let rs := markTaskDescendants xs
    (rx.1 :: rs.1, rx.2 || rs.2)

end

/-! ## Branch filter (`filterTaskBranches`, planParser.ts:302-309) -/

mutual

/-- `filterTaskBranches` (planParser.ts:302-309): keep the items whose
`hasTaskDescendants` is truthy, rebuilding each survivor with filtered
children. -/
def filterTaskBranches : List Item → List Item
  | [] => []
  | x :: xs =>
    if x.hasTaskDescendants == some true then
      filterItem x :: filterTaskBranches xs
    else filterTaskBranches xs

/-- The `map` body of `filterTaskBranches`: the item with filtered children. -/
def filterItem : Item → Item
  | .mk i ty tx s a ln lv cs h => .mk i ty tx s a ln lv (filterTaskBranches cs) h

end

/-! ## Status aggregation (`calculateAggregatedStatus` and
`collectDescendantTasks`, planParser.ts:315-364) -/

mutual

/-- `collectDescendantTasks` (planParser.ts:350-364). -/
def collectDescendantTasks : Item → List Item
  | .mk _ _ _ _ _ _ _ cs _ => collectFromChildren cs

/-- The loop of `collectDescendantTasks` over a children list. -/
def collectFromChildren : List Item → List Item
  | [] => []
  | x :: xs =>
    (if x.itype == ItemType.task then [x] else []) ++
    (if x.children.length > 0 then collectDescendantTasks x else []) ++
    collectFromChildren xs

end

mutual

/-- The body of the `for` loop of `calculateAggregatedStatus` for one item:
recursively aggregate the children, then, when the item has children, set its
`aggregatedStatus` from the collected descendant tasks (planParser.ts:316-342). -/
def calcItem : Item → Item
  | .mk i ty tx s _a ln lv cs h =>
    let cs2 := if cs.length > 0 then calculateAggregatedStatus cs else cs
    if cs2.length > 0 then
      let dts := collectDescendantTasks (Item.mk i ty tx s _a ln lv cs2 h)
      let a2 :=
        if dts.length == 0 then AggregatedStatus.pending
        else
          let doneCount := (dts.filter (fun t => t.state == some TaskState.done)).length
          if doneCount == dts.length then AggregatedStatus.done
          else if doneCount > 0 then AggregatedStatus.partialDone
          else AggregatedStatus.pending
      Item.mk i ty tx s (some a2) ln lv cs2 h
    else Item.mk i ty tx s _a ln lv cs2 h

/-- `calculateAggregatedStatus` (planParser.ts:315-343). -/
def calculateAggregatedStatus : List Item → List Item
  | [] => []
  | x :: xs => calcItem x :: calculateAggregatedStatus xs

end

/-! ## Statistics (`countTasks` closure, planParser.ts:192-206) -/

/-- Increment the counter of one task state. -/
def bumpCount (c : StateCount) : TaskState → StateCount
  | .pending => { c with pending := c.pending + 1 }
  | .done => { c with done := c.done + 1 }
  | .inProgress => { c with inProgress := c.inProgress + 1 }
  | .blocked => { c with blocked := c.blocked + 1 }

mutual

/-- The `forEach` body of `countTasks` for one item: bump the counter of a
task's state, then recurse into non-empty children. -/
def countTasksItem : Item → StateCount → StateCount
  | .mk _ ty _ s _ _ _ cs _, c =>
    let c1 :=
      if ty == ItemType.task then
        match s with
        | some st => bumpCount c st
        | none => c
      else c
    if cs.length > 0 then countTasks cs c1 else c1

/-- The `countTasks` closure (planParser.ts:193-205), with the mutable
`counts` record threaded as an accumulator. -/
def countTasks : List Item → StateCount → StateCount
  | [], c => c
  | x :: xs, c => countTasks xs (countTasksItem x c)

end

/-! ## `parsePlan` (planParser.ts:11-232) -/

/-- `content.split('\n')[0]`: the content up to the first newline. -/
def jsFirstLine (content : String) : String :=
  ⟨content.data.takeWhile (fun c => !(c == '\n'))⟩

/-- `.replace(/^#+\s*/, '').trim()`: drop a leading run of `#` (the following
whitespace run is removed by the trim) and trim. -/
def titleOfFirstLine (s : String) : String :=
  strTrim (if strStarts "#" s then ⟨s.data.dropWhile (fun c => c == '#')⟩ else s)

/-- `filePath.split(/[/\\]/).pop() || filePath`. -/
def jsBaseName (fp : String) : String :=
  let last : String := ⟨(fp.data.reverse.takeWhile (fun c => !(c == '/' || c == '\\'))).reverse⟩
  if last == "" then fp else last

/-- `parsePlan` (planParser.ts:11-232), as a function of the token stream
produced by the markdown-it collaborator for `content`. -/
def parsePlan (tokens : List Token) (content : String) (filePath : String) : ParsedPlan :=
  let flatItems := extractFlat filePath tokens
  let hierarchical0 := buildHierarchy flatItems
  let marked := (markTaskDescendants hierarchical0).1
  let filtered := filterTaskBranches marked
  let final := calculateAggregatedStatus filtered
  let counts := countTasks final ⟨0, 0, 0, 0⟩
  let totalTaskCount := (flatItems.filter (fun p => p.1.itype == ItemType.task)).length
  let firstLine := titleOfFirstLine (jsFirstLine content)
  { title := if firstLine == "" then "Untitled Plan" else firstLine
    subtitle := jsBaseName filePath
    filePath := filePath
    tasks := final
    totalCount := totalTaskCount
    stateCount := counts }

/-! ## Plan cache (`src/planCache.ts`)

The filesystem `stat` collaborator is a function `String → Option Int`
(`none` models a thrown stat error, caught by the source); the cache `Map`
is modelled extensionally as `String → Option CacheEntry`. -/

namespace PlanCache

/-- `PlanCache.get` (planCache.ts:21-41). -/
def get (stat : String → Option Int) (cache : String → Option CacheEntry)
    (filePath : String) : Option ParsedPlan :=
  match stat filePath with
  | none => none
  | some mtime =>
    match cache filePath with
    | some entry => if entry.mtime = mtime then some entry.parsed else none
    | none => none

/-- `PlanCache.set` (planCache.ts:48-60): the updated cache map. -/
def set (stat : String → Option Int) (cache : String → Option CacheEntry)
    (filePath : String) (plan : ParsedPlan) : String → Option CacheEntry :=
  match stat filePath with
  | none => cache
  | some mtime => fun q => if q = filePath then some ⟨mtime, plan⟩ else cache q

end PlanCache

/-! ## Specification-side definitions

These follow the wording of the specification (not the source) and are used
to state refinement theorems about the source-derived functions above. -/

mutual

/-- Modelled from the spec: the subtree of an item (including the item
itself) contains at least one `Task` node. -/
def subtreeHasTask : Item → Bool
  | .mk _ ty _ _ _ _ _ cs _ => ty == ItemType.task || forestHasTask cs

/-- Some subtree of the forest contains a `Task` node. -/
def forestHasTask : List Item → Bool
  | [] => false
  | x :: xs => subtreeHasTask x || forestHasTask xs

end

mutual

/-- Modelled from the spec (Branch Filter contract): recursively drop any
node, together with its entire subtree, that has no task anywhere within it
(including itself); every survivor carries `hasTaskDescendants = true` and
keeps its surviving children in order. -/
def specPrune : List Item → List Item
  | [] => []
  | x :: xs =>
    if subtreeHasTask x then specPruneItem x :: specPrune xs else specPrune xs

/-- A surviving node: `hasTaskDescendants = true`, children pruned. -/
def specPruneItem : Item → Item
  | .mk i ty tx s a ln lv cs _ => .mk i ty tx s a ln lv (specPrune cs) (some true)

end

mutual

/-- All nodes of a forest in depth-first preorder. -/
def allNodesF : List Item → List Item
  | [] => []
  | x :: xs => x :: (allNodesItem x ++ allNodesF xs)

/-- All strict descendants of an item in depth-first preorder. -/
def allNodesItem : Item → List Item
  | .mk _ _ _ _ _ _ _ cs _ => allNodesF cs

end

/-- Modelled from the spec (Hierarchy Builder contract): each item's parent
is the nearest preceding item with a strictly smaller level; items with no
such predecessor become roots; children keep document order.  Equivalently
(and this is how it is written): the first item of the sequence is a root,
its children are built from the maximal following block of strictly larger
levels, and the remainder of the sequence continues at the same or an outer
level, none of its items having a parent inside that block. -/
def specForest : List (Item × Int) → List Item
  | [] => []
  | (Item.mk i ty tx s a ln lv _ h, l) :: rest =>
    Item.mk i ty tx s a ln lv (specForest (rest.takeWhile (fun p => l < p.2))) h
      :: specForest (rest.dropWhile (fun p => l < p.2))
termination_by flat => flat.length
decreasing_by
  · simp
    exact Nat.lt_succ_of_le (List.takeWhile_sublist _).length_le
  · simp
    exact Nat.lt_succ_of_le (List.dropWhile_sublist _).length_le

/-- The descendant `Task` nodes of an item, read off the preorder traversal
(spec wording: "the full set of descendant Task nodes, transitively, not
just direct children"). -/
def descTasksSpec (x : Item) : List Item :=
  (allNodesItem x).filter (fun m => m.itype == ItemType.task)

/-- Modelled from the spec (Status Aggregator contract): empty set of
descendant tasks → `Pending`; all `Done` → `Done`; at least one but not all
`Done` → `Partial`; otherwise `Pending`. -/
def aggSpec (ts : List Item) : AggregatedStatus :=
  if ts.isEmpty then .pending
  else if ts.all (fun t => t.state == some TaskState.done) then .done
  else if ts.any (fun t => t.state == some TaskState.done) then .partialDone
  else .pending

mutual

/-- Number of nodes of a forest satisfying `p` (the node itself and all
descendants). -/
def countNodesP (p : Item → Bool) : List Item → Nat
  | [] => 0
  | x :: xs => (if p x then 1 else 0) + countNodesItemP p x + countNodesP p xs

/-- Number of strict descendants of an item satisfying `p`. -/
def countNodesItemP (p : Item → Bool) : Item → Nat
  | .mk _ _ _ _ _ _ _ cs _ => countNodesP p cs

end

/-- The running list-nesting delta of a token sequence: `+1` for each list
open, `-1` for each list close (spec wording: "incremented on entering any
bullet/ordered list, decremented on leaving one"). -/
def listDelta : List Token → Int
  | [] => 0
  | t :: rest =>
    (if t.ttype == "bullet_list_open" || t.ttype == "ordered_list_open" then (1 : Int) else 0)
      - (if t.ttype == "bullet_list_close" || t.ttype == "ordered_list_close" then (1 : Int) else 0)
      + listDelta rest

/-- Sum of the four state counters. -/
def sum4 (c : StateCount) : Nat := c.pending + c.done + c.inProgress + c.blocked

/-- Two items agree on the fields set by the extractor and never changed
afterwards: `id`, `itype`, `text`, `state`, `line`, `level`. -/
def coreEq (n m : Item) : Prop :=
  n.id = m.id ∧ n.itype = m.itype ∧ n.text = m.text ∧ n.state = m.state ∧
    n.line = m.line ∧ n.level = m.level

/-- Two items agree on everything except possibly `children`. -/
def eqExceptChildren (n m : Item) : Prop :=
  coreEq n m ∧ n.aggregatedStatus = m.aggregatedStatus ∧
    n.hasTaskDescendants = m.hasTaskDescendants

/-- The item facts guaranteed for every entry the extractor emits: empty
children, no aggregated status, no task-descendant mark yet, a state on
every task, the entry level stored in the item. -/
def EmitOK (p : Item × Int) : Prop :=
  p.1.children = [] ∧ p.1.aggregatedStatus = none ∧ p.1.hasTaskDescendants = none ∧
    (p.1.itype = ItemType.task → (p.1.state).isSome) ∧ p.1.level = p.2

/-- The status computation of `calculateAggregatedStatus` (planParser.ts:
327-340) as a function of the collected descendant tasks. -/
def aggOf (dts : List Item) : AggregatedStatus :=
  if dts.length == 0 then AggregatedStatus.pending
  else
    let doneCount := (dts.filter (fun t => t.state == some TaskState.done)).length
    if doneCount == dts.length then AggregatedStatus.done
    else if doneCount > 0 then AggregatedStatus.partialDone
    else AggregatedStatus.pending

attribute [simp] Item.id Item.itype Item.text Item.state Item.aggregatedStatus
attribute [simp] Item.line Item.level Item.children Item.hasTaskDescendants

/-- Replace an item's `children`. -/
def Item.withChildren : Item → List Item → Item
  | .mk i ty tx s a ln lv _ h, cs => .mk i ty tx s a ln lv cs h

/-- Two items agree on everything except possibly `children` and
`hasTaskDescendants`. -/
def eqExceptChildrenHTD (n m : Item) : Prop :=
  coreEq n m ∧ n.aggregatedStatus = m.aggregatedStatus

/-- A node the `countTasks` closure counts: a `Task` with a present state. -/
def isCountedTask (x : Item) : Bool :=
  x.itype == ItemType.task && (x.state).isSome

/-! ## Concrete inputs used by witnesses and counterexamples -/

/-- Shorthand for a token. -/
def mkTok (ty tag : String) (m : Option (Nat × Nat))
    (at_ : Option (List (String × String))) (c : String)
    (ch : Option (List InlineNode)) : Token :=
  ⟨ty, tag, m, at_, c, ch⟩

/-- The inline token of a list item whose raw text carries the unsupported
`[>]` marker. -/
def gtInline : Token :=
  mkTok "inline" "" (some (0, 1)) none "[>] Thing" (some [⟨"text", "[>] Thing"⟩])

/-- A token stream containing one list item with leading `[>]` text (no
task-list class from the plugin). -/
def gtTokens : List Token :=
  [mkTok "bullet_list_open" "ul" (some (0, 1)) none "" none,
   mkTok "list_item_open" "li" (some (0, 1)) none "" none,
   mkTok "paragraph_open" "p" (some (0, 1)) none "" none,
   gtInline,
   mkTok "paragraph_close" "p" none none "" none,
   mkTok "list_item_close" "li" none none "" none,
   mkTok "bullet_list_close" "ul" none none "" none]

/-- A token stream with one H2 heading followed by one `[!]` (blocked)
checklist item inside a bullet list. -/
def wTokens : List Token :=
  [mkTok "heading_open" "h2" (some (0, 1)) none "" none,
   mkTok "inline" "" (some (0, 1)) none "Section" none,
   mkTok "heading_close" "h2" none none "" none,
   mkTok "bullet_list_open" "ul" (some (1, 2)) none "" none,
   mkTok "list_item_open" "li" (some (1, 2)) none "" none,
   mkTok "paragraph_open" "p" (some (1, 2)) none "" none,
   mkTok "inline" "" (some (1, 2)) none "[!] Blocked thing" (some [⟨"text", "[!] Blocked thing"⟩]),
   mkTok "paragraph_close" "p" none none "" none,
   mkTok "list_item_close" "li" none none "" none,
   mkTok "bullet_list_close" "ul" none none "" none]

/-- A childless heading item for small concrete forests. -/
def wHeading (idv : String) (lv : Int) : Item :=
  .mk idv ItemType.heading idv none none 0 lv [] none

/-- A childless pending task item for small concrete forests. -/
def wTask (idv : String) (lv : Int) : Item :=
  .mk idv ItemType.task idv (some TaskState.pending) none 0 lv [] none

/-- A small flat `(item, level)` list: a level-2 heading, a task below it,
and a second level-2 heading. -/
def wFlat : List (Item × Int) :=
  [(wHeading "h" 2, 2), (wTask "t" 3, 3), (wHeading "g" 2, 2)]

/-- A small forest: a heading with one task child and a heading with a
childless heading child. -/
def wForest : List Item :=
  [Item.mk "h" ItemType.heading "h" none none 0 2 [wTask "t" 3] none,
   Item.mk "g" ItemType.heading "g" none none 0 2 [wHeading "e" 3] none]

/-- A trivial parsed plan for cache witnesses. -/
def wPlan : ParsedPlan :=
  ⟨"t", "s", "f.md", [], 0, ⟨0, 0, 0, 0⟩⟩

/-- A one-entry stat collaborator: `"f.md"` has mtime 5. -/
def wStat : String → Option Int :=
  fun q => if q = "f.md" then some 5 else none

/-- A stat collaborator under which `"f.md"` was modified (mtime 9). -/
def wStat2 : String → Option Int :=
  fun q => if q = "f.md" then some 9 else none

/-- A stat collaborator that fails on every path. -/
def wStatFail : String → Option Int := fun _ => none

/-- The empty cache. -/
def wCacheEmpty : String → Option CacheEntry := fun _ => none

/-! ## Induction principle for the nested item tree -/

/-- Forest induction: to prove `P` for every forest it suffices to prove it
for `[]` and for `x :: xs` given `P x.children` and `P xs`. -/
theorem forest_ind (P : List Item → Prop)
    (hnil : P [])
    (hcons : ∀ (x : Item) (xs : List Item), P x.children → P xs → P (x :: xs)) :
    ∀ items, P items := by
  have H : ∀ (n : Nat) (items : List Item), sizeOf items ≤ n → P items := by
    intro n
    induction n with
    | zero =>
      intro items h
      cases items with
      | nil => exact hnil
      | cons x xs => simp at h
    | succ n ih =>
      intro items h
      cases items with
      | nil => exact hnil
      | cons x xs =>
        refine hcons x xs (ih _ ?_) (ih _ ?_)
        · cases x with
          | mk i ty tx s a ln lv cs hh =>
            simp [Item.children] at *
            omega
        · simp at h
          omega
  intro items
  exact H (sizeOf items) items le_rfl

/-! ## Theorems -/

/-- **C7**: for every path, when the filesystem stat fails (`stat P = none`),
`PlanCache.get` returns `null` (here `none`) without throwing, and
`PlanCache.set` completes without throwing and leaves the cache map entirely
unchanged. -/
theorem c7_cache_stat_failure (stat : String → Option Int)
    (cache : String → Option CacheEntry) (p : String) (plan : ParsedPlan)
    (h : stat p = none) :
    PlanCache.get stat cache p = none ∧ PlanCache.set stat cache p plan = cache := by
  constructor
  · simp [PlanCache.get, h]
  · simp [PlanCache.set, h]

/-- Witness for **C7** at a concrete failing stat. -/
theorem c7_cache_stat_failure_witness :
    wStatFail "f.md" = none ∧
      (PlanCache.get wStatFail wCacheEmpty "f.md" = none ∧
        PlanCache.set wStatFail wCacheEmpty "f.md" wPlan = wCacheEmpty) :=
  ⟨rfl, c7_cache_stat_failure wStatFail wCacheEmpty "f.md" wPlan rfl⟩

/-- **C4**: after `PlanCache.set` succeeds recording timestamp `T` for path
`P`, `PlanCache.get` on `P` returns exactly the stored plan whenever the
current timestamp still equals `T`, and returns `none` whenever the current
timestamp differs from the stored one; and `PlanCache.get` on a path with no
cache entry returns `none`. -/
theorem c4_cache_hit_miss (stat1 stat2 : String → Option Int)
    (cache : String → Option CacheEntry) (p : String) (plan : ParsedPlan)
    (T : Int) (hset : stat1 p = some T) :
    (stat2 p = some T →
      PlanCache.get stat2 (PlanCache.set stat1 cache p plan) p = some plan) ∧
    (∀ T2, stat2 p = some T2 → T2 ≠ T →
      PlanCache.get stat2 (PlanCache.set stat1 cache p plan) p = none) ∧
    (∀ (stat : String → Option Int) (c : String → Option CacheEntry) (q : String),
      c q = none → PlanCache.get stat c q = none) := by
  refine ⟨?_, ?_, ?_⟩
  · intro h2
    simp [PlanCache.get, PlanCache.set, hset, h2]
  · intro T2 h2 hne
    simp [PlanCache.get, PlanCache.set, hset, h2]
    intro h
    exact absurd (h.symm) hne
  · intro stat c q hq
    cases hstat : stat q with
    | none => simp [PlanCache.get, hstat]
    | some m => simp [PlanCache.get, hstat, hq]

/-- Witness for **C4**: store at mtime 5, hit while the mtime is still 5,
miss after the mtime changes to 9, miss on the empty cache. -/
theorem c4_cache_hit_miss_witness :
    wStat "f.md" = some 5 ∧
      (PlanCache.get wStat (PlanCache.set wStat wCacheEmpty "f.md" wPlan) "f.md" = some wPlan ∧
        PlanCache.get wStat2 (PlanCache.set wStat wCacheEmpty "f.md" wPlan) "f.md" = none ∧
        PlanCache.get wStat wCacheEmpty "other.md" = none) := by
  have h := c4_cache_hit_miss wStat wStat2 wCacheEmpty "f.md" wPlan 5 rfl
  have h2 := c4_cache_hit_miss wStat wStat wCacheEmpty "f.md" wPlan 5 rfl
  exact ⟨rfl, h2.1 rfl, h.2.1 9 rfl (by decide), h.2.2 wStat wCacheEmpty "other.md" rfl⟩

/-- **C9**: `totalCount` equals the number of `Task` items in the extractor's
flat output (before hierarchy building and branch filtering); headings are
not counted and no task is counted twice (it is the count of `Task` entries
of that list). -/
theorem c9_total_count (tokens : List Token) (content : String) (fp : String) :
    (parsePlan tokens content fp).totalCount =
      List.countP (fun p => p.1.itype == ItemType.task) (extractFlat fp tokens) := by
  simp [parsePlan, List.countP_eq_length_filter]

/-- **C8**: `parsePlan` is total: for every token stream, content and path it
terminates and returns a `ParsedPlan` (no exception; the embedding is a
total function); degenerate inputs degrade to an empty or partial result:
an empty token stream yields an empty tree and zero counts, and an empty
document yields the fallback title. -/
theorem c8_parse_total (tokens : List Token) (content : String) (fp : String) :
    (∃ plan : ParsedPlan, parsePlan tokens content fp = plan ∧ plan.filePath = fp) ∧
    (parsePlan [] content fp).tasks = [] ∧
    (parsePlan [] content fp).totalCount = 0 ∧
    (parsePlan [] "" fp).title = "Untitled Plan" := by
  refine ⟨⟨parsePlan tokens content fp, rfl, rfl⟩, ?_, rfl, rfl⟩
  show calculateAggregatedStatus
      (filterTaskBranches (markTaskDescendants (buildHierarchy (extractFlat fp []))).1) = []
  rw [show buildHierarchy (extractFlat fp []) = [] from by
    simp [buildHierarchy, extractFlat, extractLoop, initExtract, collapseAll]]
  rfl

/-- Case analysis of one extraction step: either no item is appended, or
exactly one item satisfying `EmitOK` is appended; an appended task carries
level `lastHeadingLevel + listDepth` of the pre-step state. -/
theorem processToken_flatItems (fp : String) (t : Token) (n1 n2 : Option Token)
    (st : ExtractState) :
    (processToken fp t n1 n2 st).flatItems = st.flatItems ∨
    ∃ p, (processToken fp t n1 n2 st).flatItems = st.flatItems ++ [p] ∧ EmitOK p ∧
      (p.1.itype = ItemType.task →
        p.2 = lastHeadingLevel st.flatItems + st.listDepth ∧ ∃ s, p.1.state = some s) := by
  by_cases h1 : t.ttype = "heading_open"
  · simp only [processToken]
    rw [h1]
    simp only [String.reduceBEq, Bool.or_self, Bool.false_or, Bool.or_false, Bool.true_or,
      Bool.or_true, Bool.false_eq_true, if_false, if_true]
    rcases leadingNat (strDrop t.tag 1) with _ | hl
    · exact Or.inl rfl
    · simp only []
      by_cases hhl : 2 ≤ hl
      · rw [if_pos hhl]
        rcases n1 with _ | ct
        · exact Or.inl rfl
        · simp only []
          by_cases hct : ct.ttype = "inline"
          · rw [hct]
            exact Or.inr ⟨_, rfl, ⟨rfl, rfl, rfl, fun h => by simp at h, rfl⟩,
              fun h => by simp at h⟩
          · rw [if_neg (by simpa using hct)]
            exact Or.inl rfl
      · rw [if_neg hhl]
        exact Or.inl rfl
  · by_cases h4 : t.ttype = "list_item_open"
    · simp only [processToken]
      rw [h4]
      simp only [String.reduceBEq, Bool.or_self, Bool.false_or, Bool.or_false, Bool.true_or,
        Bool.or_true, Bool.false_eq_true, if_false, if_true]
      rcases n2 with _ | ct
      · exact Or.inl rfl
      · simp only []
        by_cases hct : ct.ttype = "inline"
        · rw [hct]
          simp only [String.reduceBEq, if_true]
          rcases ct.children with _ | cs
          · exact Or.inl rfl
          · simp only []
            rcases hcl : classifyListItem t ct cs with ⟨os, tx⟩
            rcases os with _ | s
            · exact Or.inl rfl
            · simp only []
              by_cases htx : tx = ""
              · rw [if_pos (by simpa using htx)]
                exact Or.inl rfl
              · rw [if_neg (by simpa [Ne, String.ext_iff] using htx)]
                exact Or.inr ⟨_, rfl, ⟨rfl, rfl, rfl, fun _ => rfl, rfl⟩,
                  fun _ => ⟨rfl, s, rfl⟩⟩
        · rw [if_neg (by simpa using hct)]
          exact Or.inl rfl
    · refine Or.inl ?_
      simp only [processToken,
        show (t.ttype == "heading_open") = false by simpa using h1,
        show (t.ttype == "list_item_open") = false by simpa using h4,
        Bool.false_eq_true, if_false]
      rcases Bool.eq_false_or_eq_true (t.ttype == "bullet_list_open" || t.ttype == "ordered_list_open") with h2 | h2 <;>
      rcases Bool.eq_false_or_eq_true (t.ttype == "bullet_list_close" || t.ttype == "ordered_list_close") with h3 | h3 <;>
      simp only [h2, h3, Bool.false_eq_true, if_false, if_true]

/-- One extraction step changes `listDepth` exactly by the list-open /
list-close delta of its token. -/
theorem processToken_listDepth (fp : String) (t : Token) (n1 n2 : Option Token)
    (st : ExtractState) :
    (processToken fp t n1 n2 st).listDepth = st.listDepth +
      (if t.ttype == "bullet_list_open" || t.ttype == "ordered_list_open" then (1 : Int) else 0) -
      (if t.ttype == "bullet_list_close" || t.ttype == "ordered_list_close" then (1 : Int) else 0) := by
  by_cases h1 : t.ttype = "heading_open"
  · simp only [processToken]
    rw [h1]
    simp only [String.reduceBEq, Bool.or_self, Bool.false_or, Bool.or_false,
      Bool.false_eq_true, if_false, if_true]
    rcases leadingNat (strDrop t.tag 1) with _ | hl
    · simp
    · simp only []
      by_cases hhl : 2 ≤ hl
      · rw [if_pos hhl]
        rcases n1 with _ | ct
        · simp
        · simp only []
          by_cases hct : ct.ttype = "inline"
          · rw [hct]
            simp
          · rw [if_neg (by simpa using hct)]
            simp
      · rw [if_neg hhl]
        simp
  · by_cases h4 : t.ttype = "list_item_open"
    · simp only [processToken]
      rw [h4]
      simp only [String.reduceBEq, Bool.or_self, Bool.false_or, Bool.or_false,
        Bool.false_eq_true, if_false, if_true]
      rcases n2 with _ | ct
      · simp
      · simp only []
        by_cases hct : ct.ttype = "inline"
        · rw [hct]
          simp only [String.reduceBEq, if_true]
          rcases ct.children with _ | cs
          · simp
          · simp only []
            rcases hcl : classifyListItem t ct cs with ⟨os, tx⟩
            rcases os with _ | s
            · simp
            · simp only []
              by_cases htx : tx = ""
              · rw [if_pos (by simpa using htx)]
                simp
              · rw [if_neg (by simpa using htx)]
                simp
        · rw [if_neg (by simpa using hct)]
          simp
    · simp only [processToken,
        show (t.ttype == "heading_open") = false by simpa using h1,
        show (t.ttype == "list_item_open") = false by simpa using h4,
        Bool.false_eq_true, if_false]
      rcases Bool.eq_false_or_eq_true (t.ttype == "bullet_list_open" || t.ttype == "ordered_list_open") with h2 | h2 <;>
      rcases Bool.eq_false_or_eq_true (t.ttype == "bullet_list_close" || t.ttype == "ordered_list_close") with h3 | h3 <;>
      simp only [h2, h3, Bool.false_eq_true, if_false, if_true] <;> simp

/-- The `listDepth` of the extraction loop is the initial depth plus the
open/close delta of the processed tokens. -/
theorem extractLoop_listDepth (fp : String) :
    ∀ (tokens : List Token) (st : ExtractState),
      (extractLoop fp tokens st).listDepth = st.listDepth + listDelta tokens := by
  intro tokens
  induction tokens with
  | nil => intro st; simp [extractLoop, listDelta]
  | cons t rest ih =>
    intro st
    simp only [extractLoop, listDelta]
    rw [ih, processToken_listDepth]
    omega

/-- Every entry of the extraction loop's output is either an old entry or
satisfies `EmitOK`. -/
theorem extractLoop_EmitOK (fp : String) :
    ∀ (tokens : List Token) (st : ExtractState),
      (∀ p ∈ st.flatItems, EmitOK p) →
      ∀ p ∈ (extractLoop fp tokens st).flatItems, EmitOK p := by
  intro tokens
  induction tokens with
  | nil => intro st h; simpa [extractLoop] using h
  | cons t rest ih =>
    intro st h
    simp only [extractLoop]
    refine ih _ ?_
    rcases processToken_flatItems fp t rest.head? (rest.drop 1).head? st with heq | ⟨q, heq, hq, _⟩
    · rw [heq]; exact h
    · rw [heq]
      intro p hp
      rcases List.mem_append.1 hp with hmem | hmem
      · exact h p hmem
      · rcases List.mem_singleton.1 hmem with rfl
        exact hq

/-- Every entry the extractor emits satisfies `EmitOK`. -/
theorem extractFlat_EmitOK (fp : String) (tokens : List Token) :
    ∀ p ∈ extractFlat fp tokens, EmitOK p := by
  refine extractLoop_EmitOK fp tokens initExtract ?_
  intro p hp
  simp [initExtract] at hp

/-- A flat list without headings has `lastHeadingLevel = 0`. -/
theorem lastHeadingLevel_of_no_heading (l : List (Item × Int))
    (h : ∀ q ∈ l, q.1.itype ≠ ItemType.heading) : lastHeadingLevel l = 0 := by
  unfold lastHeadingLevel
  rw [List.find?_eq_none.2]
  intro q hq
  have := h q (List.mem_reverse.1 hq)
  simp only [beq_iff_eq]
  exact this

/-- **C5**: the level of every checklist item emitted by the extractor is the
level of the nearest `Heading` entry emitted before it (`0` when no heading
has been emitted yet, in particular in a document without H2+ headings) plus
the list nesting depth current at the item's token; and the running
`listDepth` of the loop is exactly the open/close delta of the tokens
processed so far. -/
theorem c5_task_level (fp : String) :
    (∀ (t : Token) (n1 n2 : Option Token) (st : ExtractState) (p : Item × Int),
      (processToken fp t n1 n2 st).flatItems = st.flatItems ++ [p] →
      p.1.itype = ItemType.task →
        p.2 = lastHeadingLevel st.flatItems + st.listDepth ∧ p.1.level = p.2 ∧
        ((∀ q ∈ st.flatItems, q.1.itype ≠ ItemType.heading) → p.2 = st.listDepth)) ∧
    (∀ (tokens : List Token) (st : ExtractState),
      (extractLoop fp tokens st).listDepth = st.listDepth + listDelta tokens) := by
  constructor
  · intro t n1 n2 st p heq htask
    rcases processToken_flatItems fp t n1 n2 st with h0 | ⟨q, hq, hqok, hqtask⟩
    · rw [h0] at heq
      have hlen := congrArg List.length heq
      simp at hlen
    · rw [hq] at heq
      have hpq : q = p := by simpa using List.append_inj_right heq rfl
      subst hpq
      rcases hqtask htask with ⟨hlvl, _⟩
      refine ⟨hlvl, hqok.2.2.2.2, ?_⟩
      intro hnone
      rw [hlvl, lastHeadingLevel_of_no_heading st.flatItems hnone]
      omega
  · exact extractLoop_listDepth fp

/-- A text starting with `[!]` does not start with `[-]`. -/
theorem strStarts_bang_not_dash (s : String) (h : strStarts "[!]" s = true) :
    strStarts "[-]" s = false := by
  rcases s with ⟨l⟩
  rcases l with _ | ⟨a, _ | ⟨b, rest⟩⟩
  · simp [strStarts, listLead] at h
  · simp [strStarts, listLead] at h
  · simp only [strStarts, listLead, Bool.and_eq_true, beq_iff_eq] at h ⊢
    rcases h with ⟨rfl, h⟩
    rcases h with ⟨rfl, -⟩
    simp [listLead]

/-- A text starting with `[>]` does not start with `[-]`. -/
theorem strStarts_gt_not_dash (s : String) (h : strStarts "[>]" s = true) :
    strStarts "[-]" s = false := by
  rcases s with ⟨l⟩
  rcases l with _ | ⟨a, _ | ⟨b, rest⟩⟩
  · simp [strStarts, listLead] at h
  · simp [strStarts, listLead] at h
  · simp only [strStarts, listLead, Bool.and_eq_true, beq_iff_eq] at h ⊢
    rcases h with ⟨rfl, h⟩
    rcases h with ⟨rfl, -⟩
    simp [listLead]

/-- A text starting with `[>]` does not start with `[!]`. -/
theorem strStarts_gt_not_bang (s : String) (h : strStarts "[>]" s = true) :
    strStarts "[!]" s = false := by
  rcases s with ⟨l⟩
  rcases l with _ | ⟨a, _ | ⟨b, rest⟩⟩
  · simp [strStarts, listLead] at h
  · simp [strStarts, listLead] at h
  · simp only [strStarts, listLead, Bool.and_eq_true, beq_iff_eq] at h ⊢
    rcases h with ⟨rfl, h⟩
    rcases h with ⟨rfl, -⟩
    simp [listLead]

/-- Classification of a non-plugin list item with a leading `[-]`. -/
theorem classifyListItem_dash (t ct : Token) (cs : List InlineNode)
    (hcl : hasTaskClass t = false) (hpre : strStarts "[-]" ct.content = true) :
    classifyListItem t ct cs = (some TaskState.inProgress, strTrim (strDrop ct.content 3)) := by
  simp [classifyListItem, hcl, hpre]

/-- Classification of a non-plugin list item with a leading `[!]`. -/
theorem classifyListItem_bang (t ct : Token) (cs : List InlineNode)
    (hcl : hasTaskClass t = false) (hpre : strStarts "[!]" ct.content = true) :
    classifyListItem t ct cs = (some TaskState.blocked, strTrim (strDrop ct.content 3)) := by
  simp [classifyListItem, hcl, hpre, strStarts_bang_not_dash _ hpre]

/-- Classification of a non-plugin list item with a leading `[>]`: no state
is recognized. -/
theorem classifyListItem_gt (t ct : Token) (cs : List InlineNode)
    (hcl : hasTaskClass t = false) (hpre : strStarts "[>]" ct.content = true) :
    classifyListItem t ct cs = (none, "") := by
  simp [classifyListItem, hcl, strStarts_gt_not_dash _ hpre, strStarts_gt_not_bang _ hpre]

/-- The list-item branch of `processToken` when classification yields a state
and nonempty text: exactly the classified task is appended. -/
theorem processToken_listItem_emit (fp : String) (t ct : Token) (n1 : Option Token)
    (cs : List InlineNode) (st : ExtractState) (s : TaskState) (tx : String)
    (h4 : t.ttype = "list_item_open") (hct : ct.ttype = "inline")
    (hch : ct.children = some cs)
    (hcl : classifyListItem t ct cs = (some s, tx)) (htx : tx ≠ "") :
    (processToken fp t n1 (some ct) st).flatItems = st.flatItems ++
      [(Item.mk (mkItemId fp (match t.map with | some m => m.1 | none => st.lineCounter))
          ItemType.task tx (some s) none
          (match t.map with | some m => m.1 | none => st.lineCounter)
          (lastHeadingLevel st.flatItems + st.listDepth) [] none,
        lastHeadingLevel st.flatItems + st.listDepth)] := by
  simp only [processToken]
  rw [h4]
  simp only [String.reduceBEq, Bool.or_self, Bool.false_or, Bool.or_false,
    Bool.false_eq_true, if_false, if_true]
  rw [hct]
  simp only [String.reduceBEq, if_true]
  rw [hch]
  simp only []
  rw [hcl]
  simp only []
  rw [if_neg (by simpa using htx)]

/-- The list-item branch of `processToken` when classification yields no
state: nothing is appended. -/
theorem processToken_listItem_skip (fp : String) (t ct : Token) (n1 : Option Token)
    (cs : List InlineNode) (st : ExtractState) (tx : String)
    (h4 : t.ttype = "list_item_open") (hct : ct.ttype = "inline")
    (hch : ct.children = some cs)
    (hcl : classifyListItem t ct cs = (none, tx)) :
    (processToken fp t n1 (some ct) st).flatItems = st.flatItems := by
  simp only [processToken]
  rw [h4]
  simp only [String.reduceBEq, Bool.or_self, Bool.false_or, Bool.or_false,
    Bool.false_eq_true, if_false, if_true]
  rw [hct]
  simp only [String.reduceBEq, if_true]
  rw [hch]
  simp only []
  rw [hcl]

/-- **C6 (counterexample input)**: the `gtTokens` stream contains a list item
(not marked by the plugin) whose raw inline text begins with `[>]`, yet the
extractor emits nothing at all — in particular no `InProgress` task. -/
theorem c6_gt_not_recognized :
    gtInline.content = "[>] Thing" ∧ strStarts "[>]" gtInline.content = true ∧
      hasTaskClass (gtTokens.get ⟨1, by simp [gtTokens]⟩) = false ∧
      extractFlat "f.md" gtTokens = [] :=
  ⟨rfl, by decide, by decide, rfl⟩

/-- **C6 (amended)**: for a list-item token not marked by the plugin whose
raw inline text begins with `[-]` or `[!]` and whose text after stripping
the marker is nonempty, the extractor emits a task with state `InProgress`
(for `[-]`) or `Blocked` (for `[!]`) and the marker stripped; a `[>]`-prefixed
item matches no marker and nothing is emitted. -/
theorem c6_custom_markers (fp : String) (t ct : Token) (n1 : Option Token)
    (cs : List InlineNode) (st : ExtractState)
    (h4 : t.ttype = "list_item_open") (hct : ct.ttype = "inline")
    (hch : ct.children = some cs) (hcl : hasTaskClass t = false) :
    (strStarts "[-]" ct.content = true → strTrim (strDrop ct.content 3) ≠ "" →
      (processToken fp t n1 (some ct) st).flatItems = st.flatItems ++
        [(Item.mk (mkItemId fp (match t.map with | some m => m.1 | none => st.lineCounter))
            ItemType.task (strTrim (strDrop ct.content 3)) (some TaskState.inProgress) none
            (match t.map with | some m => m.1 | none => st.lineCounter)
            (lastHeadingLevel st.flatItems + st.listDepth) [] none,
          lastHeadingLevel st.flatItems + st.listDepth)]) ∧
    (strStarts "[!]" ct.content = true → strTrim (strDrop ct.content 3) ≠ "" →
      (processToken fp t n1 (some ct) st).flatItems = st.flatItems ++
        [(Item.mk (mkItemId fp (match t.map with | some m => m.1 | none => st.lineCounter))
            ItemType.task (strTrim (strDrop ct.content 3)) (some TaskState.blocked) none
            (match t.map with | some m => m.1 | none => st.lineCounter)
            (lastHeadingLevel st.flatItems + st.listDepth) [] none,
          lastHeadingLevel st.flatItems + st.listDepth)]) ∧
    (strStarts "[>]" ct.content = true →
      (processToken fp t n1 (some ct) st).flatItems = st.flatItems) := by
  refine ⟨?_, ?_, ?_⟩
  · intro hpre htx
    exact processToken_listItem_emit fp t ct n1 cs st TaskState.inProgress _ h4 hct hch
      (classifyListItem_dash t ct cs hcl hpre) htx
  · intro hpre htx
    exact processToken_listItem_emit fp t ct n1 cs st TaskState.blocked _ h4 hct hch
      (classifyListItem_bang t ct cs hcl hpre) htx
  · intro hpre
    exact processToken_listItem_skip fp t ct n1 cs st "" h4 hct hch
      (classifyListItem_gt t ct cs hcl hpre)

/-- Witness for **C6 (amended)** at a concrete `[!]` item under a heading. -/
theorem c6_custom_markers_witness :
    ((mkTok "list_item_open" "li" (some (1, 2)) none "" none).ttype = "list_item_open" ∧
      (mkTok "inline" "" (some (1, 2)) none "[!] Blocked thing"
          (some [⟨"text", "[!] Blocked thing"⟩])).ttype = "inline" ∧
      (mkTok "inline" "" (some (1, 2)) none "[!] Blocked thing"
          (some [⟨"text", "[!] Blocked thing"⟩])).children = some [⟨"text", "[!] Blocked thing"⟩] ∧
      hasTaskClass (mkTok "list_item_open" "li" (some (1, 2)) none "" none) = false ∧
      strStarts "[!]"
        (mkTok "inline" "" (some (1, 2)) none "[!] Blocked thing"
          (some [⟨"text", "[!] Blocked thing"⟩])).content = true ∧
      strTrim (strDrop (mkTok "inline" "" (some (1, 2)) none "[!] Blocked thing"
          (some [⟨"text", "[!] Blocked thing"⟩])).content 3) ≠ "") ∧
    (processToken "f.md" (mkTok "list_item_open" "li" (some (1, 2)) none "" none) none
        (some (mkTok "inline" "" (some (1, 2)) none "[!] Blocked thing"
          (some [⟨"text", "[!] Blocked thing"⟩])))
        ⟨[(wHeading "h" 2, 2)], 1, 4⟩).flatItems =
      [(wHeading "h" 2, 2)] ++
        [(Item.mk "f.md:1" ItemType.task "Blocked thing" (some TaskState.blocked) none 1 3 [] none,
          3)] := by
  refine ⟨⟨rfl, rfl, rfl, by decide, by decide, by decide⟩, ?_⟩
  exact (c6_custom_markers "f.md" (mkTok "list_item_open" "li" (some (1, 2)) none "" none)
      (mkTok "inline" "" (some (1, 2)) none "[!] Blocked thing"
        (some [⟨"text", "[!] Blocked thing"⟩])) none [⟨"text", "[!] Blocked thing"⟩]
      ⟨[(wHeading "h" 2, 2)], 1, 4⟩ rfl rfl rfl (by decide)).2.1 (by decide) (by decide)

/-- Witness for **C5**: a concrete `[!]` task emitted below a level-2 heading
at list depth 1 gets level `2 + 1 = 3`. -/
theorem c5_task_level_witness :
    ((processToken "f.md" (mkTok "list_item_open" "li" (some (1, 2)) none "" none) none
        (some (mkTok "inline" "" (some (1, 2)) none "[!] Blocked thing"
          (some [⟨"text", "[!] Blocked thing"⟩])))
        ⟨[(wHeading "h" 2, 2)], 1, 4⟩).flatItems =
      (⟨[(wHeading "h" 2, 2)], 1, 4⟩ : ExtractState).flatItems ++
        [(Item.mk "f.md:1" ItemType.task "Blocked thing" (some TaskState.blocked) none 1 3 []
            none, 3)] ∧
      (Item.mk "f.md:1" ItemType.task "Blocked thing" (some TaskState.blocked) none 1 3 []
          none).itype = ItemType.task) ∧
    ((3 : Int) = lastHeadingLevel [(wHeading "h" 2, 2)] + 1 ∧ (3 : Int) = (3 : Int) ∧
      ((∀ q ∈ [(wHeading "h" 2, 2)], q.1.itype ≠ ItemType.heading) → (3 : Int) = 1)) := by
  refine ⟨⟨rfl, rfl⟩, ?_⟩
  have h := (c5_task_level "f.md").1 (mkTok "list_item_open" "li" (some (1, 2)) none "" none) none
    (some (mkTok "inline" "" (some (1, 2)) none "[!] Blocked thing"
      (some [⟨"text", "[!] Blocked thing"⟩])))
    ⟨[(wHeading "h" 2, 2)], 1, 4⟩
    (Item.mk "f.md:1" ItemType.task "Blocked thing" (some TaskState.blocked) none 1 3 [] none, 3)
    rfl rfl
  simpa using h

/-- Writing an accumulator into the last item of `acc ++ [x]` rewrites
exactly `x`'s children. -/
theorem setLastChildren_append (a : List Item) (x : Item) (cs : List Item) :
    setLastChildren (a ++ [x]) cs = a ++ [x.withChildren cs] := by
  induction a with
  | nil =>
    rcases x with ⟨i, ty, tx, s, ag, ln, lv, c, h⟩
    rfl
  | cons a1 a' ih =>
    rcases a' with _ | ⟨a2, a''⟩
    · rcases x with ⟨i, ty, tx, s, ag, ln, lv, c, h⟩
      simp [setLastChildren, Item.withChildren]
    · simpa [setLastChildren] using ih

/-- `collapseStack` on a single frame does nothing. -/
theorem collapseStack_single (f : Frame) (l : Int) : collapseStack [f] l = [f] := by
  simp [collapseStack]

/-- `collapseAll` of a stack ending in `g` merges everything above into `g`. -/
theorem collapseAll_append (g : Frame) :
    ∀ (n : Nat) (S : List Frame), S.length ≤ n → S ≠ [] →
      collapseAll (S ++ [g]) = mergeTop (collapseAll S) g := by
  intro n
  induction n with
  | zero =>
    intro S hlen hne
    rcases S with _ | ⟨f, S'⟩
    · exact absurd rfl hne
    · simp at hlen
  | succ n ih =>
    intro S hlen hne
    rcases S with _ | ⟨f, S'⟩
    · exact absurd rfl hne
    · rcases S' with _ | ⟨f2, S''⟩
      · simp [collapseAll]
      · have h1 : collapseAll ((f :: f2 :: S'') ++ [g]) =
            collapseAll ((mergeTop f f2 :: S'') ++ [g]) := by
          simp [collapseAll]
        have h2 : collapseAll (f :: f2 :: S'') = collapseAll (mergeTop f f2 :: S'') := by
          simp [collapseAll]
        rw [h1, h2]
        exact ih (mergeTop f f2 :: S'') (by simp at hlen ⊢; omega) (by simp)

/-- Popping through a stack of frames whose levels are all `≥ l` merges them
into the frame below. -/
theorem collapseStack_drain (l : Int) :
    ∀ (n : Nat) (S : List Frame), S.length ≤ n → S ≠ [] → (∀ fr ∈ S, l ≤ fr.level) →
      ∀ (g : Frame) (rest : List Frame),
        collapseStack (S ++ g :: rest) l = collapseStack (mergeTop (collapseAll S) g :: rest) l := by
  intro n
  induction n with
  | zero =>
    intro S hlen hne
    rcases S with _ | ⟨f, S'⟩
    · exact absurd rfl hne
    · simp at hlen
  | succ n ih =>
    intro S hlen hne hlev g rest
    rcases S with _ | ⟨f, S'⟩
    · exact absurd rfl hne
    · rcases S' with _ | ⟨f2, S''⟩
      · have hf : l ≤ f.level := hlev f (by simp)
        simp only [List.cons_append, List.nil_append]
        rw [collapseStack, if_pos hf]
        simp [collapseAll]
      · have hf : l ≤ f.level := hlev f (by simp)
        have h1 : collapseStack ((f :: f2 :: S'') ++ g :: rest) l =
            collapseStack ((mergeTop f f2 :: S'') ++ g :: rest) l := by
          simp only [List.cons_append]
          rw [collapseStack, if_pos hf]
        have hlev2 : ∀ fr ∈ mergeTop f f2 :: S'', l ≤ fr.level := by
          intro fr hfr
          rcases List.mem_cons.1 hfr with rfl | hfr
          · simpa [mergeTop] using hlev f2 (by simp)
          · exact hlev fr (by simp [hfr])
        rw [h1, show collapseAll (f :: f2 :: S'') = collapseAll (mergeTop f f2 :: S'') from by
          simp [collapseAll]]
        exact ih (mergeTop f f2 :: S'') (by simp at hlen ⊢; omega) (by simp) hlev2 g rest

/-- `collapseStack` does not pop past a top frame of lower level. -/
theorem collapseStack_low (g : Frame) (fs : List Frame) (l : Int) (h : g.level < l) :
    collapseStack (g :: fs) l = g :: fs := by
  rcases fs with _ | ⟨f2, fs'⟩
  · exact collapseStack_single g l
  · rw [collapseStack, if_neg (by omega)]

/-- A build step on a stack whose top frame has lower level than the incoming
item: push the item into the top frame and open a new frame. -/
theorem buildStep_low (g : Frame) (fs : List Frame) (x : Item) (lx : Int)
    (h : g.level < lx) :
    buildStep (g :: fs) (x, lx) = ⟨lx, x.children⟩ :: ⟨g.level, g.acc ++ [x]⟩ :: fs := by
  simp [buildStep, collapseStack_low g fs lx h]

/-- A build step on a singleton stack: push into the only frame. -/
theorem buildStep_single (g : Frame) (x : Item) (lx : Int) :
    buildStep [g] (x, lx) = [⟨lx, x.children⟩, ⟨g.level, g.acc ++ [x]⟩] := by
  simp [buildStep, collapseStack_single]

/-- Merging a popped frame into a frame whose last entry is the popped
frame's owner writes the accumulator into that owner's children. -/
theorem mergeTop_push (lx : Int) (acc1 : List Item) (lv : Int) (acc : List Item) (x : Item) :
    mergeTop ⟨lx, acc1⟩ ⟨lv, acc ++ [x]⟩ = ⟨lv, acc ++ [x.withChildren acc1]⟩ := by
  simp [mergeTop, setLastChildren_append]

/-- The recursion equation of `specForest`. -/
theorem specForest_cons (x : Item) (lx : Int) (rest : List (Item × Int)) :
    specForest ((x, lx) :: rest) =
      x.withChildren (specForest (rest.takeWhile (fun p => lx < p.2)))
        :: specForest (rest.dropWhile (fun p => lx < p.2)) := by
  rcases x with ⟨i, ty, tx, s, a, ln, lv, cs, h⟩
  simp [specForest, Item.withChildren]

/-- The head of a `dropWhile` result fails the predicate. -/
theorem dropWhile_head_false (p : (Item × Int) → Bool) :
    ∀ (l : List (Item × Int)) (a : Item × Int) (l' : List (Item × Int)),
      l.dropWhile p = a :: l' → p a = false := by
  intro l
  induction l with
  | nil => intro a l' h; simp at h
  | cons b bs ih =>
    intro a l' h
    by_cases hb : p b = true
    · rw [List.dropWhile_cons_of_pos hb] at h
      exact ih a l' h
    · rw [List.dropWhile_cons_of_neg hb] at h
      cases h
      simpa using hb

/-- Processing a block of items whose levels all exceed the top frame's
level acts locally: the frames below the top are untouched, and collapsing
the touched part appends exactly `specForest block` to the top frame's
accumulator. -/
theorem foldl_buildStep_above :
    ∀ (n : Nat) (block : List (Item × Int)), block.length ≤ n →
      (∀ p ∈ block, p.1.children = []) →
      ∀ g : Frame, (∀ p ∈ block, g.level < p.2) →
      ∃ S : List Frame,
        (∀ fs : List Frame, List.foldl buildStep (g :: fs) block = S ++ fs) ∧
        S ≠ [] ∧ (∀ fr ∈ S, g.level ≤ fr.level) ∧
        collapseAll S = ⟨g.level, g.acc ++ specForest block⟩ := by
  intro n
  induction n with
  | zero =>
    intro block hlen _ g _
    have hb : block = [] := by
      rcases block with _ | ⟨p, rest⟩
      · rfl
      · simp at hlen
    subst hb
    exact ⟨[g], fun fs => rfl, by simp, by simp,
      by cases g with | mk lv acc => simp [collapseAll, specForest]⟩
  | succ n ih =>
    intro block hlen hch g hlev
    rcases block with _ | ⟨⟨x, lx⟩, rest⟩
    · exact ⟨[g], fun fs => rfl, by simp, by simp,
        by cases g with | mk lv acc => simp [collapseAll, specForest]⟩
    · have hxlev : g.level < lx := hlev (x, lx) (by simp)
      have hxch : x.children = [] := hch (x, lx) (by simp)
      have hrlen : rest.length ≤ n := by simp at hlen; omega
      have hsplit : rest.takeWhile (fun p => lx < p.2) ++ rest.dropWhile (fun p => lx < p.2)
          = rest := by exact List.takeWhile_append_dropWhile _ _
      have hsubmem : ∀ p ∈ rest.takeWhile (fun p => lx < p.2), p ∈ (x, lx) :: rest :=
        fun p hp => List.mem_cons_of_mem _ ((List.takeWhile_sublist _).subset hp)
      have hrestmem : ∀ p ∈ rest.dropWhile (fun p => lx < p.2), p ∈ (x, lx) :: rest :=
        fun p hp => List.mem_cons_of_mem _ ((List.dropWhile_sublist _).subset hp)
      obtain ⟨S₁, hfold₁, hne₁, hlev₁, hcol₁⟩ :=
        ih (rest.takeWhile (fun p => lx < p.2))
          (le_trans (List.takeWhile_sublist _).length_le hrlen)
          (fun p hp => hch p (hsubmem p hp))
          ⟨lx, []⟩
          (fun p hp => by
            have := List.mem_takeWhile_imp hp
            simpa using this)
      have hstep : ∀ fs : List Frame,
          List.foldl buildStep (g :: fs) ((x, lx) :: rest) =
            List.foldl buildStep
              (S₁ ++ (⟨g.level, g.acc ++ [x]⟩ : Frame) :: fs)
              (rest.dropWhile (fun p => lx < p.2)) := by
        intro fs
        rw [List.foldl_cons, buildStep_low g fs x lx hxlev, hxch]
        conv_lhs => rw [← hsplit]
        rw [List.foldl_append, hfold₁]
      rcases hr : rest.dropWhile (fun p => lx < p.2) with _ | ⟨⟨y, ly⟩, rest''⟩
      · refine ⟨S₁ ++ [⟨g.level, g.acc ++ [x]⟩], ?_, by simp, ?_, ?_⟩
        · intro fs
          rw [hstep fs, hr]
          simp
        · intro fr hfr
          rcases List.mem_append.1 hfr with hfr | hfr
          · exact le_trans (le_of_lt hxlev) (by simpa using hlev₁ fr hfr)
          · rcases List.mem_singleton.1 hfr with rfl
            simp
        · rw [collapseAll_append _ S₁.length S₁ le_rfl hne₁, hcol₁]
          rw [show (⟨lx, [] ++ specForest (rest.takeWhile (fun p => lx < p.2))⟩ : Frame)
            = ⟨lx, specForest (rest.takeWhile (fun p => lx < p.2))⟩ from by simp]
          rw [mergeTop_push, specForest_cons, hr]
          simp [specForest]
      · have hly1 : ¬ lx < ly := by
          have := dropWhile_head_false _ rest _ _ hr
          simpa using this
        have hly2 : g.level < ly := by
          have : (y, ly) ∈ (x, lx) :: rest := hrestmem (y, ly) (by rw [hr]; simp)
          exact hlev _ this
        have hmdef : mergeTop (collapseAll S₁) ⟨g.level, g.acc ++ [x]⟩ =
            ⟨g.level, g.acc ++ [x.withChildren (specForest (rest.takeWhile (fun p => lx < p.2)))]⟩ := by
          rw [hcol₁]
          rw [show (⟨lx, [] ++ specForest (rest.takeWhile (fun p => lx < p.2))⟩ : Frame)
            = ⟨lx, specForest (rest.takeWhile (fun p => lx < p.2))⟩ from by simp]
          rw [mergeTop_push]
        have hstep2 : ∀ fs : List Frame,
            buildStep (S₁ ++ (⟨g.level, g.acc ++ [x]⟩ : Frame) :: fs) (y, ly) =
              buildStep ((⟨g.level,
                g.acc ++ [x.withChildren (specForest (rest.takeWhile (fun p => lx < p.2)))]⟩ : Frame)
                  :: fs) (y, ly) := by
          intro fs
          have hdrain := collapseStack_drain ly S₁.length S₁ le_rfl hne₁
            (fun fr hfr => le_trans (show ly ≤ lx by omega) (by simpa using hlev₁ fr hfr))
            ⟨g.level, g.acc ++ [x]⟩ fs
          simp only [buildStep, hdrain, hmdef]
        obtain ⟨S₂, hfold₂, hne₂, hlev₂, hcol₂⟩ :=
          ih (rest.dropWhile (fun p => lx < p.2))
            (le_trans (List.dropWhile_sublist _).length_le hrlen)
            (fun p hp => hch p (hrestmem p hp))
            ⟨g.level,
              g.acc ++ [x.withChildren (specForest (rest.takeWhile (fun p => lx < p.2)))]⟩
            (fun p hp => hlev p (hrestmem p hp))
        refine ⟨S₂, ?_, hne₂, ?_, ?_⟩
        · intro fs
          rw [hstep fs, hr, List.foldl_cons, hstep2 fs, ← List.foldl_cons, ← hr,
            hfold₂ fs]
        · intro fr hfr
          simpa using hlev₂ fr hfr
        · rw [hcol₂, specForest_cons]
          simp

/-- Running the builder from a single bottom frame (which the length guard
protects from popping) appends exactly `specForest block` to its
accumulator. -/
theorem foldl_buildStep_root :
    ∀ (n : Nat) (block : List (Item × Int)), block.length ≤ n →
      (∀ p ∈ block, p.1.children = []) →
      ∀ g : Frame,
        collapseAll (List.foldl buildStep [g] block) = ⟨g.level, g.acc ++ specForest block⟩ := by
  intro n
  induction n with
  | zero =>
    intro block hlen _ g
    have hb : block = [] := by
      rcases block with _ | ⟨p, rest⟩
      · rfl
      · simp at hlen
    subst hb
    cases g with | mk lv acc => simp [collapseAll, specForest]
  | succ n ih =>
    intro block hlen hch g
    rcases block with _ | ⟨⟨x, lx⟩, rest⟩
    · cases g with | mk lv acc => simp [collapseAll, specForest]
    · have hxch : x.children = [] := hch (x, lx) (by simp)
      have hrlen : rest.length ≤ n := by simp at hlen; omega
      have hsplit : rest.takeWhile (fun p => lx < p.2) ++ rest.dropWhile (fun p => lx < p.2)
          = rest := by exact List.takeWhile_append_dropWhile _ _
      have hsubmem : ∀ p ∈ rest.takeWhile (fun p => lx < p.2), p ∈ (x, lx) :: rest :=
        fun p hp => List.mem_cons_of_mem _ ((List.takeWhile_sublist _).subset hp)
      have hrestmem : ∀ p ∈ rest.dropWhile (fun p => lx < p.2), p ∈ (x, lx) :: rest :=
        fun p hp => List.mem_cons_of_mem _ ((List.dropWhile_sublist _).subset hp)
      obtain ⟨S₁, hfold₁, hne₁, hlev₁, hcol₁⟩ :=
        foldl_buildStep_above (rest.takeWhile (fun p => lx < p.2)).length
          (rest.takeWhile (fun p => lx < p.2)) le_rfl
          (fun p hp => hch p (hsubmem p hp))
          ⟨lx, []⟩
          (fun p hp => by
            have := List.mem_takeWhile_imp hp
            simpa using this)
      have hstep :
          List.foldl buildStep [g] ((x, lx) :: rest) =
            List.foldl buildStep
              (S₁ ++ [(⟨g.level, g.acc ++ [x]⟩ : Frame)])
              (rest.dropWhile (fun p => lx < p.2)) := by
        rw [List.foldl_cons, buildStep_single g x lx, hxch]
        conv_lhs => rw [← hsplit]
        rw [List.foldl_append, hfold₁]
      have hmdef : mergeTop (collapseAll S₁) ⟨g.level, g.acc ++ [x]⟩ =
          ⟨g.level, g.acc ++ [x.withChildren (specForest (rest.takeWhile (fun p => lx < p.2)))]⟩ := by
        rw [hcol₁]
        rw [show (⟨lx, [] ++ specForest (rest.takeWhile (fun p => lx < p.2))⟩ : Frame)
          = ⟨lx, specForest (rest.takeWhile (fun p => lx < p.2))⟩ from by simp]
        rw [mergeTop_push]
      rcases hr : rest.dropWhile (fun p => lx < p.2) with _ | ⟨⟨y, ly⟩, rest''⟩
      · rw [hstep, hr]
        simp only [List.foldl_nil]
        rw [collapseAll_append _ S₁.length S₁ le_rfl hne₁, hmdef, specForest_cons, hr]
        simp [specForest]
      · have hly1 : ¬ lx < ly := by
          have := dropWhile_head_false _ rest _ _ hr
          simpa using this
        have hstep2 :
            buildStep (S₁ ++ [(⟨g.level, g.acc ++ [x]⟩ : Frame)]) (y, ly) =
              buildStep [(⟨g.level,
                g.acc ++ [x.withChildren (specForest (rest.takeWhile (fun p => lx < p.2)))]⟩ : Frame)]
                (y, ly) := by
          have hdrain := collapseStack_drain ly S₁.length S₁ le_rfl hne₁
            (fun fr hfr => le_trans (show ly ≤ lx by omega) (by simpa using hlev₁ fr hfr))
            ⟨g.level, g.acc ++ [x]⟩ []
          simp only [buildStep, hdrain, hmdef]
        rw [hstep, hr, List.foldl_cons, hstep2, ← List.foldl_cons, ← hr]
        rw [ih (rest.dropWhile (fun p => lx < p.2))
          (le_trans (List.dropWhile_sublist _).length_le hrlen)
          (fun p hp => hch p (hrestmem p hp)) _]
        rw [specForest_cons]
        simp

/-- **C2**: on any flat `(item, level)` sequence of childless items (as the
extractor produces), `buildHierarchy` returns exactly the forest in which
each item's parent is the nearest preceding item of strictly smaller level,
items with no such predecessor are roots, and children keep document order
(the recursive `specForest` built from the spec's words). -/
theorem c2_build_hierarchy (flat : List (Item × Int))
    (hch : ∀ p ∈ flat, p.1.children = []) :
    buildHierarchy flat = specForest flat := by
  unfold buildHierarchy
  rw [foldl_buildStep_root flat.length flat le_rfl hch ⟨0, []⟩]
  simp

/-- Witness for **C2** at a concrete flat list (heading 2, task 3,
heading 2). -/
theorem c2_build_hierarchy_witness :
    (∀ p ∈ wFlat, p.1.children = []) ∧ buildHierarchy wFlat = specForest wFlat := by
  have hch : ∀ p ∈ wFlat, p.1.children = [] := by
    intro p hp
    simp only [wFlat, List.mem_cons, List.not_mem_nil, or_false] at hp
    rcases hp with rfl | rfl | rfl <;> rfl
  exact ⟨hch, c2_build_hierarchy wFlat hch⟩

/-- The one-step equation of `markItem`. -/
theorem markItem_eq (i : String) (ty : ItemType) (tx : String) (s : Option TaskState)
    (a : Option AggregatedStatus) (ln : Nat) (lv : Int) (cs : List Item) (h : Option Bool) :
    markItem (Item.mk i ty tx s a ln lv cs h) =
      if ty == ItemType.task then
        (Item.mk i ty tx s a ln lv
          (if cs.length > 0 then (markTaskDescendants cs).1 else cs) (some true), true)
      else if cs.length > 0 then
        (Item.mk i ty tx s a ln lv (markTaskDescendants cs).1
          (some (markTaskDescendants cs).2), (markTaskDescendants cs).2)
      else (Item.mk i ty tx s a ln lv cs (some false), false) := by
  simp only [markItem]

/-- The one-step equation of `markTaskDescendants`. -/
theorem markTaskDescendants_cons (x : Item) (xs : List Item) :
    markTaskDescendants (x :: xs) =
      ((markItem x).1 :: (markTaskDescendants xs).1,
        (markItem x).2 || (markTaskDescendants xs).2) := by
  simp only [markTaskDescendants]

/-- The one-step equation of `filterTaskBranches`. -/
theorem filterTaskBranches_cons (x : Item) (xs : List Item) :
    filterTaskBranches (x :: xs) =
      if x.hasTaskDescendants == some true then filterItem x :: filterTaskBranches xs
      else filterTaskBranches xs := by
  simp only [filterTaskBranches]

/-- The one-step equation of `filterItem`. -/
theorem filterItem_eq (i : String) (ty : ItemType) (tx : String) (s : Option TaskState)
    (a : Option AggregatedStatus) (ln : Nat) (lv : Int) (cs : List Item) (h : Option Bool) :
    filterItem (Item.mk i ty tx s a ln lv cs h) =
      Item.mk i ty tx s a ln lv (filterTaskBranches cs) h := by
  simp only [filterItem]

/-- The one-step equation of `specPrune`. -/
theorem specPrune_cons (x : Item) (xs : List Item) :
    specPrune (x :: xs) =
      if subtreeHasTask x then specPruneItem x :: specPrune xs else specPrune xs := by
  simp only [specPrune]

/-- The one-step equation of `specPruneItem`. -/
theorem specPruneItem_eq (i : String) (ty : ItemType) (tx : String) (s : Option TaskState)
    (a : Option AggregatedStatus) (ln : Nat) (lv : Int) (cs : List Item) (h : Option Bool) :
    specPruneItem (Item.mk i ty tx s a ln lv cs h) =
      Item.mk i ty tx s a ln lv (specPrune cs) (some true) := by
  simp only [specPruneItem]

/-- The one-step equation of `subtreeHasTask`. -/
theorem subtreeHasTask_eq (i : String) (ty : ItemType) (tx : String) (s : Option TaskState)
    (a : Option AggregatedStatus) (ln : Nat) (lv : Int) (cs : List Item) (h : Option Bool) :
    subtreeHasTask (Item.mk i ty tx s a ln lv cs h) =
      (ty == ItemType.task || forestHasTask cs) := by
  simp only [subtreeHasTask]

/-- The one-step equation of `forestHasTask`. -/
theorem forestHasTask_cons (x : Item) (xs : List Item) :
    forestHasTask (x :: xs) = (subtreeHasTask x || forestHasTask xs) := by
  simp only [forestHasTask]

/-- Marking computes `hasAnyTasks = forestHasTask`, and filtering the marked
forest is exactly the spec-side pruning. -/
theorem mark_filter_eq_specPrune :
    ∀ items : List Item,
      (markTaskDescendants items).2 = forestHasTask items ∧
      filterTaskBranches (markTaskDescendants items).1 = specPrune items := by
  refine forest_ind _ ⟨rfl, rfl⟩ ?_
  intro x xs ihc ihx
  rcases x with ⟨i, ty, tx, s, a, ln, lv, cs, h⟩
  simp only [Item.children] at ihc
  rcases ty with _ | _
  · -- heading
    rcases cs with _ | ⟨c, cs'⟩
    · have hmi : markItem (Item.mk i ItemType.heading tx s a ln lv [] h) =
          (Item.mk i ItemType.heading tx s a ln lv [] (some false), false) := by
        rw [markItem_eq]
        simp [show (ItemType.heading == ItemType.task) = false from rfl]
      have hsub : subtreeHasTask (Item.mk i ItemType.heading tx s a ln lv [] h) = false := by
        rw [subtreeHasTask_eq]
        rfl
      constructor
      · rw [markTaskDescendants_cons, forestHasTask_cons, hmi, hsub, ihx.1]
      · rw [markTaskDescendants_cons, hmi]
        simp only []
        rw [filterTaskBranches_cons, specPrune_cons, hsub]
        simpa using ihx.2
    · have hmi : markItem (Item.mk i ItemType.heading tx s a ln lv (c :: cs') h) =
          (Item.mk i ItemType.heading tx s a ln lv (markTaskDescendants (c :: cs')).1
            (some (markTaskDescendants (c :: cs')).2), (markTaskDescendants (c :: cs')).2) := by
        rw [markItem_eq]
        simp [show (ItemType.heading == ItemType.task) = false from rfl]
      have hsub : subtreeHasTask (Item.mk i ItemType.heading tx s a ln lv (c :: cs') h) =
          forestHasTask (c :: cs') := by
        rw [subtreeHasTask_eq]
        simp [show (ItemType.heading == ItemType.task) = false from rfl]
      constructor
      · rw [markTaskDescendants_cons, forestHasTask_cons, hmi, hsub, ihx.1, ihc.1]
      · rw [markTaskDescendants_cons, hmi]
        simp only []
        rw [filterTaskBranches_cons, specPrune_cons, hsub, ihc.1]
        rcases hft : forestHasTask (c :: cs') with _ | _
        · simp only [Item.hasTaskDescendants, Bool.false_eq_true, if_false,
            show ((some false : Option Bool) == some true) = false from rfl]
          exact ihx.2
        · simp only [Item.hasTaskDescendants, if_true,
            show ((some true : Option Bool) == some true) = true from rfl]
          rw [filterItem_eq, specPruneItem_eq, ihc.2, ihx.2]
  · -- task
    have hsub : subtreeHasTask (Item.mk i ItemType.task tx s a ln lv cs h) = true := by
      rw [subtreeHasTask_eq]
      simp [show (ItemType.task == ItemType.task) = true from rfl]
    rcases cs with _ | ⟨c, cs'⟩
    · have hmi : markItem (Item.mk i ItemType.task tx s a ln lv [] h) =
          (Item.mk i ItemType.task tx s a ln lv [] (some true), true) := by
        rw [markItem_eq]
        simp [show (ItemType.task == ItemType.task) = true from rfl]
      constructor
      · rw [markTaskDescendants_cons, forestHasTask_cons, hmi, hsub, ihx.1]
      · rw [markTaskDescendants_cons, hmi]
        simp only []
        rw [filterTaskBranches_cons, specPrune_cons, hsub]
        simp only [Item.hasTaskDescendants, if_true,
          show ((some true : Option Bool) == some true) = true from rfl]
        rw [filterItem_eq, specPruneItem_eq, ihx.2]
        rfl
    · have hmi : markItem (Item.mk i ItemType.task tx s a ln lv (c :: cs') h) =
          (Item.mk i ItemType.task tx s a ln lv (markTaskDescendants (c :: cs')).1
            (some true), true) := by
        rw [markItem_eq]
        simp [show (ItemType.task == ItemType.task) = true from rfl]
      constructor
      · rw [markTaskDescendants_cons, forestHasTask_cons, hmi, hsub, ihx.1]
      · rw [markTaskDescendants_cons, hmi]
        simp only []
        rw [filterTaskBranches_cons, specPrune_cons, hsub]
        simp only [Item.hasTaskDescendants, if_true,
          show ((some true : Option Bool) == some true) = true from rfl]
        rw [filterItem_eq, specPruneItem_eq, ihc.2, ihx.2]

/-- Pruning preserves whether a forest contains a task. -/
theorem forestHasTask_specPrune :
    ∀ items : List Item, forestHasTask (specPrune items) = forestHasTask items := by
  refine forest_ind _ rfl ?_
  intro x xs ihc ihx
  rcases x with ⟨i, ty, tx, s, a, ln, lv, cs, h⟩
  simp only [Item.children] at ihc
  rcases hst : subtreeHasTask (Item.mk i ty tx s a ln lv cs h) with _ | _
  · have : (ty == ItemType.task) = false ∧ forestHasTask cs = false := by
      simpa [subtreeHasTask] using hst
    simp [specPrune, hst, forestHasTask, subtreeHasTask, ihx, this.1, this.2]
  · simp only [subtreeHasTask] at hst
    simp [specPrune, hst, forestHasTask, subtreeHasTask, specPruneItem, ihx, ihc, hst]

/-- Every node of the pruned forest carries `hasTaskDescendants = some true`
and still has a task in its (pruned) subtree. -/
theorem specPrune_nodes :
    ∀ items : List Item, ∀ n ∈ allNodesF (specPrune items),
      n.hasTaskDescendants = some true ∧ subtreeHasTask n = true := by
  refine forest_ind _ (by simp [specPrune, allNodesF]) ?_
  intro x xs ihc ihx
  rcases x with ⟨i, ty, tx, s, a, ln, lv, cs, h⟩
  simp only [Item.children] at ihc
  rcases hst : subtreeHasTask (Item.mk i ty tx s a ln lv cs h) with _ | _
  · intro n hn
    rw [specPrune, hst] at hn
    simp only [Bool.false_eq_true, if_false] at hn
    exact ihx n hn
  · intro n hn
    rw [specPrune, hst] at hn
    simp only [if_true] at hn
    rcases (show n = specPruneItem (Item.mk i ty tx s a ln lv cs h) ∨
        n ∈ allNodesItem (specPruneItem (Item.mk i ty tx s a ln lv cs h)) ∨
        n ∈ allNodesF (specPrune xs) by simpa [allNodesF] using hn) with rfl | hn3 | hn3
    · refine ⟨by simp [specPruneItem], ?_⟩
      rw [subtreeHasTask_eq] at hst
      rw [specPruneItem_eq, subtreeHasTask_eq, forestHasTask_specPrune]
      exact hst
    · exact ihc n (by simpa [specPruneItem, allNodesItem] using hn3)
    · exact ihx n hn3

/-- A node with a task in its subtree witnesses a task in any forest
containing it. -/
theorem forestHasTask_of_mem :
    ∀ items : List Item, ∀ m ∈ allNodesF items, subtreeHasTask m = true →
      forestHasTask items = true := by
  refine forest_ind _ (by simp [allNodesF]) ?_
  intro x xs ihc ihx
  intro m hm hsub
  rcases (show m = x ∨ m ∈ allNodesItem x ∨ m ∈ allNodesF xs
      by simpa [allNodesF] using hm) with rfl | hm3 | hm3
  · rw [forestHasTask_cons, hsub]
    rfl
  · rcases x with ⟨i, ty, tx, s, a, ln, lv, cs, h⟩
    simp only [Item.children] at ihc
    have := ihc m (by simpa [allNodesItem] using hm3) hsub
    rw [forestHasTask_cons, subtreeHasTask_eq, this]
    simp
  · rw [forestHasTask_cons, ihx m hm3 hsub]
    simp

/-- Every node whose subtree contains a task survives pruning, with all
fields except `children` and `hasTaskDescendants` unchanged. -/
theorem specPrune_survives :
    ∀ items : List Item, ∀ m ∈ allNodesF items, subtreeHasTask m = true →
      ∃ n ∈ allNodesF (specPrune items), eqExceptChildrenHTD n m := by
  refine forest_ind _ (by simp [allNodesF]) ?_
  intro x xs ihc ihx
  intro m hm hsub
  rcases (show m = x ∨ m ∈ allNodesItem x ∨ m ∈ allNodesF xs
      by simpa [allNodesF] using hm) with rfl | hm3 | hm3
  · refine ⟨specPruneItem m, ?_, ?_⟩
    · rw [specPrune_cons, hsub]
      simp [allNodesF]
    · rcases m with ⟨i, ty, tx, s, a, ln, lv, cs, h⟩
      rw [specPruneItem_eq]
      exact ⟨⟨rfl, rfl, rfl, rfl, rfl, rfl⟩, rfl⟩
  · rcases x with ⟨i, ty, tx, s, a, ln, lv, cs, h⟩
    simp only [Item.children] at ihc
    have hmc : m ∈ allNodesF cs := by simpa [allNodesItem] using hm3
    have hx : subtreeHasTask (Item.mk i ty tx s a ln lv cs h) = true := by
      rw [subtreeHasTask_eq, forestHasTask_of_mem cs m hmc hsub]
      simp
    obtain ⟨n, hn, hcore⟩ := ihc m hmc hsub
    refine ⟨n, ?_, hcore⟩
    rw [specPrune_cons, hx]
    simp only [if_true]
    simp only [allNodesF, specPruneItem_eq, allNodesItem, List.mem_cons, List.mem_append]
    right
    left
    exact hn
  · obtain ⟨n, hn, hcore⟩ := ihx m hm3 hsub
    refine ⟨n, ?_, hcore⟩
    rcases hst : subtreeHasTask x with _ | _
    · rw [specPrune_cons, hst]
      simpa using hn
    · rw [specPrune_cons, hst]
      simp only [if_true]
      simp only [allNodesF, List.mem_cons, List.mem_append]
      right
      right
      exact hn

/-- Pruning keeps surviving siblings in order (their ids form a sublist). -/
theorem specPrune_sublist :
    ∀ items : List Item, List.Sublist ((specPrune items).map Item.id) (items.map Item.id) := by
  intro items
  induction items with
  | nil => simp [specPrune]
  | cons x xs ih =>
    rcases hst : subtreeHasTask x with _ | _
    · rw [specPrune_cons, hst]
      simp only [Bool.false_eq_true, if_false, List.map_cons]
      exact List.Sublist.cons _ ih
    · rw [specPrune_cons, hst]
      simp only [if_true]
      rcases x with ⟨i, ty, tx, s, a, ln, lv, cs, h⟩
      rw [specPruneItem_eq]
      simp only [List.map_cons, Item.id]
      exact List.Sublist.cons₂ _ ih

/-- **C3**: `markTaskDescendants` followed by `filterTaskBranches` removes
exactly the nodes whose subtree (itself included) contains no task: the
composition equals the spec-side recursive pruning; every surviving node has
`hasTaskDescendants = true` and a task in its subtree; every node whose
subtree contains a task survives (with only `children` and
`hasTaskDescendants` changed); surviving siblings keep their relative
order. -/
theorem c3_mark_filter (items : List Item) :
    filterTaskBranches (markTaskDescendants items).1 = specPrune items ∧
    (∀ n ∈ allNodesF (filterTaskBranches (markTaskDescendants items).1),
      n.hasTaskDescendants = some true ∧ subtreeHasTask n = true) ∧
    (∀ m ∈ allNodesF items, subtreeHasTask m = true →
      ∃ n ∈ allNodesF (filterTaskBranches (markTaskDescendants items).1),
        eqExceptChildrenHTD n m) ∧
    List.Sublist ((filterTaskBranches (markTaskDescendants items).1).map Item.id)
      (items.map Item.id) := by
  have heq := (mark_filter_eq_specPrune items).2
  refine ⟨heq, ?_, ?_, ?_⟩
  · rw [heq]
    exact specPrune_nodes items
  · rw [heq]
    exact specPrune_survives items
  · rw [heq]
    exact specPrune_sublist items

/-- Witness for **C3** at a concrete forest: the heading over a task
survives; the inner membership hypotheses are discharged at the root
heading. -/
theorem c3_mark_filter_witness :
    (Item.mk "h" ItemType.heading "h" none none 0 2 [wTask "t" 3] none ∈ allNodesF wForest ∧
      subtreeHasTask (Item.mk "h" ItemType.heading "h" none none 0 2 [wTask "t" 3] none) = true) ∧
    (filterTaskBranches (markTaskDescendants wForest).1 = specPrune wForest ∧
      ∃ n ∈ allNodesF (filterTaskBranches (markTaskDescendants wForest).1),
        eqExceptChildrenHTD n
          (Item.mk "h" ItemType.heading "h" none none 0 2 [wTask "t" 3] none)) := by
  have hmem : Item.mk "h" ItemType.heading "h" none none 0 2 [wTask "t" 3] none
      ∈ allNodesF wForest := by
    exact List.mem_cons_self _ _
  have hsub : subtreeHasTask
      (Item.mk "h" ItemType.heading "h" none none 0 2 [wTask "t" 3] none) = true := by
    rfl
  exact ⟨⟨hmem, hsub⟩, (c3_mark_filter wForest).1,
    (c3_mark_filter wForest).2.2.1 _ hmem hsub⟩

/-- The one-step equation of `allNodesF`. -/
theorem allNodesF_cons (x : Item) (xs : List Item) :
    allNodesF (x :: xs) = x :: (allNodesItem x ++ allNodesF xs) := by
  simp only [allNodesF]

/-- The one-step equation of `allNodesItem`. -/
theorem allNodesItem_eq (i : String) (ty : ItemType) (tx : String) (s : Option TaskState)
    (a : Option AggregatedStatus) (ln : Nat) (lv : Int) (cs : List Item) (h : Option Bool) :
    allNodesItem (Item.mk i ty tx s a ln lv cs h) = allNodesF cs := by
  simp only [allNodesItem]

/-- The one-step equation of `collectFromChildren`. -/
theorem collectFromChildren_cons (x : Item) (xs : List Item) :
    collectFromChildren (x :: xs) =
      (if x.itype == ItemType.task then [x] else []) ++
      (if x.children.length > 0 then collectDescendantTasks x else []) ++
      collectFromChildren xs := by
  simp only [collectFromChildren]

/-- The one-step equation of `collectDescendantTasks`. -/
theorem collectDescendantTasks_eq (i : String) (ty : ItemType) (tx : String)
    (s : Option TaskState) (a : Option AggregatedStatus) (ln : Nat) (lv : Int)
    (cs : List Item) (h : Option Bool) :
    collectDescendantTasks (Item.mk i ty tx s a ln lv cs h) = collectFromChildren cs := by
  simp only [collectDescendantTasks]

/-- `collectDescendantTasks` collects exactly the `Task` nodes of the
preorder traversal of the children. -/
theorem collectFromChildren_eq_filter :
    ∀ items : List Item,
      collectFromChildren items = (allNodesF items).filter (fun m => m.itype == ItemType.task) := by
  refine forest_ind _ (by simp [collectFromChildren, allNodesF]) ?_
  intro x xs ihc ihx
  rw [collectFromChildren_cons, allNodesF_cons]
  rcases x with ⟨i, ty, tx, s, a, ln, lv, cs, h⟩
  simp only [Item.children] at ihc
  rw [allNodesItem_eq, List.filter_cons]
  rcases cs with _ | ⟨c, cs'⟩
  · simp only [Item.children, List.length_nil, gt_iff_lt, lt_self_iff_false, if_false,
      List.filter_append, ← ihx]
    rcases hty : (Item.mk i ty tx s a ln lv [] h).itype == ItemType.task with _ | _
    · simp [allNodesF, collectFromChildren, hty]
    · simp [allNodesF, collectFromChildren, hty]
  · simp only [Item.children, List.length_cons, gt_iff_lt, Nat.succ_pos, if_true,
      List.filter_append, ← ihx, ← ihc, collectDescendantTasks_eq]
    rcases hty : (Item.mk i ty tx s a ln lv (c :: cs') h).itype == ItemType.task with _ | _
    · simp [hty]
    · simp [hty]

/-- The done-count branch structure of the source equals the spec-side
`aggSpec`. -/
theorem aggOf_eq_aggSpec (dts : List Item) : aggOf dts = aggSpec dts := by
  unfold aggOf aggSpec
  rcases dts with _ | ⟨d, ds⟩
  · rfl
  · have hlen0 : ((d :: ds).length == 0) = false := by simp
    have hE : (d :: ds).isEmpty = false := rfl
    simp only [hlen0, hE, Bool.false_eq_true, if_false]
    by_cases hall : (d :: ds).all (fun t => t.state == some TaskState.done) = true
    · have hf : (d :: ds).filter (fun t => t.state == some TaskState.done) = d :: ds :=
        List.filter_eq_self.2 (List.all_eq_true.1 hall)
      simp only [hf, hall, if_true, beq_self_eq_true]
    · have hallf : ((d :: ds).all (fun t => t.state == some TaskState.done)) = false :=
        Bool.eq_false_iff.2 hall
      have hlt : (((d :: ds).filter (fun t => t.state == some TaskState.done)).length
          == (d :: ds).length) = false := by
        rw [beq_eq_false_iff_ne]
        intro hcon
        exact hall (List.all_eq_true.2 (List.filter_length_eq_length.1 hcon))
      simp only [hallf, hlt, Bool.false_eq_true, if_false]
      by_cases hany : (d :: ds).any (fun t => t.state == some TaskState.done) = true
      · obtain ⟨d2, hd2, hd2p⟩ := List.any_eq_true.1 hany
        have hpos : 0 < ((d :: ds).filter (fun t => t.state == some TaskState.done)).length := by
          rw [List.length_pos]
          intro hcon
          have hmem : d2 ∈ (d :: ds).filter (fun t => t.state == some TaskState.done) :=
            List.mem_filter.2 ⟨hd2, hd2p⟩
          rw [hcon] at hmem
          simp at hmem
        rw [if_pos hpos]
        simp only [hany, if_true]
      · have hanyf : ((d :: ds).any (fun t => t.state == some TaskState.done)) = false :=
          Bool.eq_false_iff.2 hany
        have h0 : ((d :: ds).filter (fun t => t.state == some TaskState.done)).length = 0 := by
          rw [List.length_eq_zero, List.filter_eq_nil_iff]
          intro d2 hd2
          by_contra hcon
          exact hany (List.any_eq_true.2 ⟨d2, hd2, by simpa using hcon⟩)
        rw [if_neg (by omega)]
        simp only [hanyf, Bool.false_eq_true, if_false]

/-- The one-step equation of `calculateAggregatedStatus`. -/
theorem calculateAggregatedStatus_cons (x : Item) (xs : List Item) :
    calculateAggregatedStatus (x :: xs) = calcItem x :: calculateAggregatedStatus xs := by
  simp only [calculateAggregatedStatus]

/-- `calcItem` on a childless item leaves it unchanged. -/
theorem calcItem_nil (i : String) (ty : ItemType) (tx : String) (s : Option TaskState)
    (a : Option AggregatedStatus) (ln : Nat) (lv : Int) (h : Option Bool) :
    calcItem (Item.mk i ty tx s a ln lv [] h) = Item.mk i ty tx s a ln lv [] h := by
  simp only [calcItem]
  rfl

/-- `calcItem` on an item with children aggregates the processed children
and stores the computed status. -/
theorem calcItem_cons (i : String) (ty : ItemType) (tx : String) (s : Option TaskState)
    (a : Option AggregatedStatus) (ln : Nat) (lv : Int) (c : Item) (cs' : List Item)
    (h : Option Bool) :
    calcItem (Item.mk i ty tx s a ln lv (c :: cs') h) =
      Item.mk i ty tx s
        (some (aggOf (collectDescendantTasks
          (Item.mk i ty tx s a ln lv (calculateAggregatedStatus (c :: cs')) h))))
        ln lv (calculateAggregatedStatus (c :: cs')) h := by
  have hlen : 0 < (calculateAggregatedStatus (c :: cs')).length := by
    rw [calculateAggregatedStatus_cons]
    simp
  rw [calcItem]
  simp only []
  rw [if_pos (show (c :: cs').length > 0 by simp), if_pos hlen]
  simp only [aggOf]

/-- The aggregation pass: on a forest whose nodes carry no aggregated status
yet, every output node with children gets exactly the spec-side status of
its descendant tasks, and every childless output node still has none. -/
theorem calcAgg_nodes :
    ∀ items : List Item, (∀ n ∈ allNodesF items, n.aggregatedStatus = none) →
      ∀ n ∈ allNodesF (calculateAggregatedStatus items),
        (n.children ≠ [] → n.aggregatedStatus = some (aggSpec (descTasksSpec n))) ∧
        (n.children = [] → n.aggregatedStatus = none) := by
  refine forest_ind _ (by simp [calculateAggregatedStatus, allNodesF]) ?_
  intro x xs ihc ihx
  intro hag n hn
  rcases x with ⟨i, ty, tx, s, a, ln, lv, cs, h⟩
  simp only [Item.children] at ihc
  have hagx : a = none := by
    have := hag (Item.mk i ty tx s a ln lv cs h) (by rw [allNodesF_cons]; simp)
    simpa using this
  subst hagx
  have hagc : ∀ m ∈ allNodesF cs, m.aggregatedStatus = none := by
    intro m hm
    refine hag m ?_
    rw [allNodesF_cons, allNodesItem_eq]
    simp [hm]
  have hagxs : ∀ m ∈ allNodesF xs, m.aggregatedStatus = none := by
    intro m hm
    refine hag m ?_
    rw [allNodesF_cons]
    simp [hm]
  rw [calculateAggregatedStatus_cons] at hn
  rcases cs with _ | ⟨c, cs'⟩
  · rw [calcItem_nil, allNodesF_cons, allNodesItem_eq] at hn
    rcases (show n = Item.mk i ty tx s none ln lv [] h ∨ n ∈ allNodesF []
        ∨ n ∈ allNodesF (calculateAggregatedStatus xs) by simpa using hn) with rfl | hn2 | hn2
    · exact ⟨fun hcon => absurd rfl hcon, fun _ => rfl⟩
    · simp [allNodesF] at hn2
    · exact ihx hagxs n hn2
  · rw [calcItem_cons, allNodesF_cons, allNodesItem_eq] at hn
    rcases (show n = Item.mk i ty tx s
          (some (aggOf (collectDescendantTasks
            (Item.mk i ty tx s none ln lv (calculateAggregatedStatus (c :: cs')) h))))
          ln lv (calculateAggregatedStatus (c :: cs')) h ∨
        n ∈ allNodesF (calculateAggregatedStatus (c :: cs')) ∨
        n ∈ allNodesF (calculateAggregatedStatus xs) by simpa using hn) with rfl | hn2 | hn2
    · constructor
      · intro _
        rw [collectDescendantTasks_eq, collectFromChildren_eq_filter, aggOf_eq_aggSpec]
        simp only [Item.aggregatedStatus, Option.some.injEq]
        unfold descTasksSpec
        rw [allNodesItem_eq]
      · intro hcon
        rw [Item.children] at hcon
        rw [calculateAggregatedStatus_cons] at hcon
        simp at hcon
    · exact ihc hagc n hn2
    · exact ihx hagxs n hn2

/-- Every node of `specForest flat` is an entry of `flat` with only its
`children` replaced. -/
theorem specForest_fields :
    ∀ (n : Nat) (flat : List (Item × Int)), flat.length ≤ n →
      ∀ m ∈ allNodesF (specForest flat), ∃ p ∈ flat, eqExceptChildren m p.1 := by
  intro n
  induction n with
  | zero =>
    intro flat hlen m hm
    have hb : flat = [] := by
      rcases flat with _ | ⟨p, rest⟩
      · rfl
      · simp at hlen
    subst hb
    simp [specForest, allNodesF] at hm
  | succ n ih =>
    intro flat hlen m hm
    rcases flat with _ | ⟨⟨x, lx⟩, rest⟩
    · simp [specForest, allNodesF] at hm
    · have hrlen : rest.length ≤ n := by simp at hlen; omega
      rw [specForest_cons, allNodesF_cons] at hm
      rcases x with ⟨i, ty, tx, s, a, ln, lv, cs, h⟩
      rw [show (Item.mk i ty tx s a ln lv cs h).withChildren
            (specForest (rest.takeWhile (fun p => lx < p.2))) =
          Item.mk i ty tx s a ln lv (specForest (rest.takeWhile (fun p => lx < p.2))) h
          from rfl, allNodesItem_eq] at hm
      rcases (show m = Item.mk i ty tx s a ln lv
            (specForest (rest.takeWhile (fun p => lx < p.2))) h ∨
          m ∈ allNodesF (specForest (rest.takeWhile (fun p => lx < p.2))) ∨
          m ∈ allNodesF (specForest (rest.dropWhile (fun p => lx < p.2)))
          by simpa using hm) with rfl | hm2 | hm2
      · exact ⟨(Item.mk i ty tx s a ln lv cs h, lx), by simp,
          ⟨rfl, rfl, rfl, rfl, rfl, rfl⟩, rfl, rfl⟩
      · obtain ⟨p, hp, hf⟩ := ih (rest.takeWhile (fun p => lx < p.2))
          (le_trans (List.takeWhile_sublist _).length_le hrlen) m hm2
        exact ⟨p, List.mem_cons_of_mem _ ((List.takeWhile_sublist _).subset hp), hf⟩
      · obtain ⟨p, hp, hf⟩ := ih (rest.dropWhile (fun p => lx < p.2))
          (le_trans (List.dropWhile_sublist _).length_le hrlen) m hm2
        exact ⟨p, List.mem_cons_of_mem _ ((List.dropWhile_sublist _).subset hp), hf⟩

/-- Every node of `specPrune items` is a node of `items` with only
`children` and `hasTaskDescendants` changed. -/
theorem specPrune_fields :
    ∀ items : List Item, ∀ n ∈ allNodesF (specPrune items),
      ∃ m ∈ allNodesF items, eqExceptChildrenHTD n m := by
  refine forest_ind _ (by simp [specPrune, allNodesF]) ?_
  intro x xs ihc ihx
  intro n hn
  rcases x with ⟨i, ty, tx, s, a, ln, lv, cs, h⟩
  simp only [Item.children] at ihc
  rcases hst : subtreeHasTask (Item.mk i ty tx s a ln lv cs h) with _ | _
  · rw [specPrune_cons, hst] at hn
    simp only [Bool.false_eq_true, if_false] at hn
    obtain ⟨m, hm, hf⟩ := ihx n hn
    exact ⟨m, by rw [allNodesF_cons]; simp [hm], hf⟩
  · rw [specPrune_cons, hst] at hn
    simp only [if_true] at hn
    rw [allNodesF_cons, specPruneItem_eq, allNodesItem_eq] at hn
    rcases (show n = Item.mk i ty tx s a ln lv (specPrune cs) (some true) ∨
        n ∈ allNodesF (specPrune cs) ∨ n ∈ allNodesF (specPrune xs)
        by simpa using hn) with rfl | hn2 | hn2
    · exact ⟨Item.mk i ty tx s a ln lv cs h, by rw [allNodesF_cons]; simp,
        ⟨rfl, rfl, rfl, rfl, rfl, rfl⟩, rfl⟩
    · obtain ⟨m, hm, hf⟩ := ihc n hn2
      exact ⟨m, by rw [allNodesF_cons, allNodesItem_eq]; simp [hm], hf⟩
    · obtain ⟨m, hm, hf⟩ := ihx n hn2
      exact ⟨m, by rw [allNodesF_cons]; simp [hm], hf⟩

/-- **C1**: in the final tree of `parsePlan`, every node with at least one
child carries `aggregatedStatus = aggSpec` of its transitive descendant
`Task` nodes (empty → Pending, all Done → Done, some but not all Done →
Partial, otherwise Pending; headings contribute no state), and every node
with no children carries no `aggregatedStatus`. -/
theorem c1_aggregated_status (tokens : List Token) (content : String) (fp : String) :
    ∀ n ∈ allNodesF (parsePlan tokens content fp).tasks,
      (n.children ≠ [] → n.aggregatedStatus = some (aggSpec (descTasksSpec n))) ∧
      (n.children = [] → n.aggregatedStatus = none) := by
  have hflat := extractFlat_EmitOK fp tokens
  have htasks : (parsePlan tokens content fp).tasks =
      calculateAggregatedStatus (specPrune (specForest (extractFlat fp tokens))) := by
    show calculateAggregatedStatus
        (filterTaskBranches
          (markTaskDescendants (buildHierarchy (extractFlat fp tokens))).1) = _
    rw [(mark_filter_eq_specPrune _).2,
      c2_build_hierarchy _ (fun p hp => (hflat p hp).1)]
  rw [htasks]
  refine calcAgg_nodes _ ?_
  intro n hn
  obtain ⟨m, hm, hfm⟩ := specPrune_fields _ n hn
  obtain ⟨p, hp, hfp⟩ := specForest_fields (extractFlat fp tokens).length _ le_rfl m hm
  rw [hfm.2, hfp.2.1, (hflat p hp).2.1]

/-- Concrete evaluation of the whole pipeline on `wTokens`: one pending
heading over one blocked task. -/
theorem parsePlan_wTokens_eval :
    (parsePlan wTokens "## Section" "f.md").tasks =
      [Item.mk "f.md:0" ItemType.heading "Section" none (some AggregatedStatus.pending) 0 2
        [Item.mk "f.md:1" ItemType.task "Blocked thing" (some TaskState.blocked) none 1 3 []
          (some true)] (some true)] := by
  show calculateAggregatedStatus
      (filterTaskBranches
        (markTaskDescendants (buildHierarchy (extractFlat "f.md" wTokens))).1) = _
  rw [show extractFlat "f.md" wTokens =
      [(Item.mk "f.md:0" ItemType.heading "Section" none none 0 2 [] none, 2),
        (Item.mk "f.md:1" ItemType.task "Blocked thing" (some TaskState.blocked) none 1 3 []
          none, 3)] from rfl]
  rw [show buildHierarchy
        [(Item.mk "f.md:0" ItemType.heading "Section" none none 0 2 [] none, 2),
          (Item.mk "f.md:1" ItemType.task "Blocked thing" (some TaskState.blocked) none 1 3 []
            none, 3)] =
      [Item.mk "f.md:0" ItemType.heading "Section" none none 0 2
        [Item.mk "f.md:1" ItemType.task "Blocked thing" (some TaskState.blocked) none 1 3 []
          none] none] from by
    simp [buildHierarchy, buildStep, collapseStack, collapseAll, mergeTop, setLastChildren]]
  rfl

/-- Witness for **C1**: in the concrete parse of `wTokens` the heading node
has a child and carries exactly `aggSpec` of its descendant tasks, namely
`Pending` (one blocked task, none done). -/
theorem c1_aggregated_status_witness :
    (Item.mk "f.md:0" ItemType.heading "Section" none (some AggregatedStatus.pending) 0 2
        [Item.mk "f.md:1" ItemType.task "Blocked thing" (some TaskState.blocked) none 1 3 []
          (some true)] (some true)
      ∈ allNodesF (parsePlan wTokens "## Section" "f.md").tasks) ∧
    ((Item.mk "f.md:0" ItemType.heading "Section" none (some AggregatedStatus.pending) 0 2
        [Item.mk "f.md:1" ItemType.task "Blocked thing" (some TaskState.blocked) none 1 3 []
          (some true)] (some true)).children ≠ [] →
      (Item.mk "f.md:0" ItemType.heading "Section" none (some AggregatedStatus.pending) 0 2
        [Item.mk "f.md:1" ItemType.task "Blocked thing" (some TaskState.blocked) none 1 3 []
          (some true)] (some true)).aggregatedStatus =
        some (aggSpec (descTasksSpec
          (Item.mk "f.md:0" ItemType.heading "Section" none (some AggregatedStatus.pending) 0 2
            [Item.mk "f.md:1" ItemType.task "Blocked thing" (some TaskState.blocked) none 1 3 []
              (some true)] (some true))))) ∧
    ((Item.mk "f.md:0" ItemType.heading "Section" none (some AggregatedStatus.pending) 0 2
        [Item.mk "f.md:1" ItemType.task "Blocked thing" (some TaskState.blocked) none 1 3 []
          (some true)] (some true)).children = [] →
      (Item.mk "f.md:0" ItemType.heading "Section" none (some AggregatedStatus.pending) 0 2
        [Item.mk "f.md:1" ItemType.task "Blocked thing" (some TaskState.blocked) none 1 3 []
          (some true)] (some true)).aggregatedStatus = none) := by
  have hmem : Item.mk "f.md:0" ItemType.heading "Section" none (some AggregatedStatus.pending) 0 2
      [Item.mk "f.md:1" ItemType.task "Blocked thing" (some TaskState.blocked) none 1 3 []
        (some true)] (some true)
      ∈ allNodesF (parsePlan wTokens "## Section" "f.md").tasks := by
    rw [parsePlan_wTokens_eval, allNodesF_cons]
    exact List.mem_cons_self _ _
  have h := c1_aggregated_status wTokens "## Section" "f.md" _ hmem
  exact ⟨hmem, h.1, h.2⟩

/-- The one-step equation of `countNodesP`. -/
theorem countNodesP_cons (p : Item → Bool) (x : Item) (xs : List Item) :
    countNodesP p (x :: xs) =
      (if p x then 1 else 0) + countNodesItemP p x + countNodesP p xs := by
  simp only [countNodesP]

/-- The one-step equation of `countNodesItemP`. -/
theorem countNodesItemP_eq (p : Item → Bool) (i : String) (ty : ItemType) (tx : String)
    (s : Option TaskState) (a : Option AggregatedStatus) (ln : Nat) (lv : Int)
    (cs : List Item) (h : Option Bool) :
    countNodesItemP p (Item.mk i ty tx s a ln lv cs h) = countNodesP p cs := by
  simp only [countNodesItemP]

/-- The one-step equation of `countTasks`. -/
theorem countTasks_cons (x : Item) (xs : List Item) (c : StateCount) :
    countTasks (x :: xs) c = countTasks xs (countTasksItem x c) := by
  simp only [countTasks]

/-- The one-step equation of `countTasksItem`. -/
theorem countTasksItem_eq (i : String) (ty : ItemType) (tx : String) (s : Option TaskState)
    (a : Option AggregatedStatus) (ln : Nat) (lv : Int) (cs : List Item) (h : Option Bool)
    (c : StateCount) :
    countTasksItem (Item.mk i ty tx s a ln lv cs h) c =
      (let c1 := if ty == ItemType.task then
          match s with
          | some st => bumpCount c st
          | none => c
        else c
       if cs.length > 0 then countTasks cs c1 else c1) := by
  simp only [countTasksItem]

/-- Bumping one state counter adds one to the total. -/
theorem sum4_bumpCount (c : StateCount) (st : TaskState) :
    sum4 (bumpCount c st) = sum4 c + 1 := by
  rcases st with _ | _ | _ | _ <;> simp [bumpCount, sum4] <;> omega

/-- `countTasks` on the empty forest. -/
theorem countTasks_nil (c : StateCount) : countTasks [] c = c := by
  simp only [countTasks]

/-- The total of the state histogram accumulated by `countTasks` is the
number of counted task nodes (tasks with a present state). -/
theorem sum4_countTasks :
    ∀ items : List Item, ∀ c : StateCount,
      sum4 (countTasks items c) = sum4 c + countNodesP isCountedTask items := by
  refine forest_ind _ (by simp [countTasks_nil, countNodesP]) ?_
  intro x xs ihc ihx
  intro c
  rcases x with ⟨i, ty, tx, s, a, ln, lv, cs, h⟩
  simp only [Item.children] at ihc
  rw [countTasks_cons, ihx, countTasksItem_eq, countNodesP_cons, countNodesItemP_eq]
  simp only []
  have hc1 : sum4 (if ty == ItemType.task then
      match s with
      | some st => bumpCount c st
      | none => c
    else c) = sum4 c + (if isCountedTask (Item.mk i ty tx s a ln lv cs h) then 1 else 0) := by
    rcases hty : (ty == ItemType.task) with _ | _
    · simp [hty, isCountedTask]
    · rcases s with _ | st
      · simp [hty, isCountedTask]
      · simp [hty, isCountedTask, sum4_bumpCount]
  rcases cs with _ | ⟨c2, cs'⟩
  · simp only [List.length_nil, gt_iff_lt, lt_self_iff_false, if_false, hc1, countNodesP]
    omega
  · simp only [List.length_cons, gt_iff_lt, Nat.succ_pos, if_true, ihc, hc1]
    omega

/-- A forest without tasks contains no counted task node. -/
theorem countNodesP_no_task :
    ∀ items : List Item, forestHasTask items = false →
      countNodesP isCountedTask items = 0 := by
  refine forest_ind _ (by simp [countNodesP]) ?_
  intro x xs ihc ihx
  intro hf
  rw [forestHasTask_cons] at hf
  rcases x with ⟨i, ty, tx, s, a, ln, lv, cs, h⟩
  simp only [Item.children] at ihc
  rw [subtreeHasTask_eq] at hf
  simp only [Bool.or_eq_false_iff] at hf
  rw [countNodesP_cons, countNodesItemP_eq, ihc hf.1.2, ihx hf.2]
  simp [isCountedTask, hf.1.1]

/-- Pruning removes no counted task node. -/
theorem countNodesP_specPrune :
    ∀ items : List Item,
      countNodesP isCountedTask (specPrune items) = countNodesP isCountedTask items := by
  refine forest_ind _ (by simp [specPrune, countNodesP]) ?_
  intro x xs ihc ihx
  rcases x with ⟨i, ty, tx, s, a, ln, lv, cs, h⟩
  simp only [Item.children] at ihc
  rcases hst : subtreeHasTask (Item.mk i ty tx s a ln lv cs h) with _ | _
  · rw [specPrune_cons, hst]
    simp only [Bool.false_eq_true, if_false]
    rw [subtreeHasTask_eq] at hst
    simp only [Bool.or_eq_false_iff] at hst
    rw [ihx, countNodesP_cons, countNodesItemP_eq, countNodesP_no_task cs hst.2]
    simp [isCountedTask, hst.1]
  · rw [specPrune_cons, hst]
    simp only [if_true]
    rw [countNodesP_cons, specPruneItem_eq, countNodesItemP_eq, countNodesP_cons,
      countNodesItemP_eq, ihc, ihx]
    rfl

/-- Aggregation changes no counted task node. -/
theorem countNodesP_calcAgg :
    ∀ items : List Item,
      countNodesP isCountedTask (calculateAggregatedStatus items) =
        countNodesP isCountedTask items := by
  refine forest_ind _ (by simp [calculateAggregatedStatus, countNodesP]) ?_
  intro x xs ihc ihx
  rcases x with ⟨i, ty, tx, s, a, ln, lv, cs, h⟩
  simp only [Item.children] at ihc
  rw [calculateAggregatedStatus_cons]
  rcases cs with _ | ⟨c, cs'⟩
  · rw [calcItem_nil, countNodesP_cons, countNodesP_cons, countNodesItemP_eq, ihx]
  · rw [calcItem_cons, countNodesP_cons, countNodesP_cons, countNodesItemP_eq,
      countNodesItemP_eq, ihc, ihx]
    rfl

/-- The counted task nodes of `specForest flat` are exactly the counted
entries of `flat`. -/
theorem countNodesP_specForest :
    ∀ (n : Nat) (flat : List (Item × Int)), flat.length ≤ n →
      countNodesP isCountedTask (specForest flat) =
        flat.countP (fun p => isCountedTask p.1) := by
  intro n
  induction n with
  | zero =>
    intro flat hlen
    have hb : flat = [] := by
      rcases flat with _ | ⟨p, rest⟩
      · rfl
      · simp at hlen
    subst hb
    simp [specForest, countNodesP]
  | succ n ih =>
    intro flat hlen
    rcases flat with _ | ⟨⟨x, lx⟩, rest⟩
    · simp [specForest, countNodesP]
    · have hrlen : rest.length ≤ n := by simp at hlen; omega
      have hsplit : rest.takeWhile (fun p => lx < p.2) ++ rest.dropWhile (fun p => lx < p.2)
          = rest := by exact List.takeWhile_append_dropWhile _ _
      rw [specForest_cons, countNodesP_cons]
      rcases x with ⟨i, ty, tx, s, a, ln, lv, cs, h⟩
      rw [show (Item.mk i ty tx s a ln lv cs h).withChildren
            (specForest (rest.takeWhile (fun p => lx < p.2))) =
          Item.mk i ty tx s a ln lv (specForest (rest.takeWhile (fun p => lx < p.2))) h
          from rfl, countNodesItemP_eq]
      rw [ih _ (le_trans (List.takeWhile_sublist _).length_le hrlen),
        ih _ (le_trans (List.dropWhile_sublist _).length_le hrlen)]
      rw [List.countP_cons]
      conv_rhs => rw [← hsplit]
      rw [List.countP_append]
      have : isCountedTask (Item.mk i ty tx s a ln lv
          (specForest (rest.takeWhile (fun p => lx < p.2))) h) =
          isCountedTask (Item.mk i ty tx s a ln lv cs h) := by
        simp [isCountedTask]
      rw [this]
      rcases hct : isCountedTask (Item.mk i ty tx s a ln lv cs h) with _ | _
      · simp
      · simp
        omega

/-- `coreEq` is transitive. -/
theorem coreEq_trans {a b c : Item} (h1 : coreEq a b) (h2 : coreEq b c) : coreEq a c :=
  ⟨h1.1.trans h2.1, h1.2.1.trans h2.2.1, h1.2.2.1.trans h2.2.2.1,
    h1.2.2.2.1.trans h2.2.2.2.1, h1.2.2.2.2.1.trans h2.2.2.2.2.1,
    h1.2.2.2.2.2.trans h2.2.2.2.2.2⟩

/-- A task node trivially has a task in its subtree. -/
theorem subtreeHasTask_of_task (m : Item) (h : m.itype = ItemType.task) :
    subtreeHasTask m = true := by
  rcases m with ⟨i, ty, tx, s, a, ln, lv, cs, hh⟩
  simp only [Item.itype] at h
  subst h
  rw [subtreeHasTask_eq]
  simp

/-- Every entry of `flat` appears as a node of `specForest flat`, with only
its `children` replaced. -/
theorem specForest_mem :
    ∀ (n : Nat) (flat : List (Item × Int)), flat.length ≤ n →
      ∀ p ∈ flat, ∃ m ∈ allNodesF (specForest flat), eqExceptChildren m p.1 := by
  intro n
  induction n with
  | zero =>
    intro flat hlen p hp
    have hb : flat = [] := by
      rcases flat with _ | ⟨q, rest⟩
      · rfl
      · simp at hlen
    subst hb
    simp at hp
  | succ n ih =>
    intro flat hlen p hp
    rcases flat with _ | ⟨⟨x, lx⟩, rest⟩
    · simp at hp
    · have hrlen : rest.length ≤ n := by simp at hlen; omega
      have hsplit : rest.takeWhile (fun p => lx < p.2) ++ rest.dropWhile (fun p => lx < p.2)
          = rest := by exact List.takeWhile_append_dropWhile _ _
      rcases x with ⟨i, ty, tx, s, a, ln, lv, cs, h⟩
      rw [specForest_cons, allNodesF_cons]
      rw [show (Item.mk i ty tx s a ln lv cs h).withChildren
            (specForest (rest.takeWhile (fun p => lx < p.2))) =
          Item.mk i ty tx s a ln lv (specForest (rest.takeWhile (fun p => lx < p.2))) h
          from rfl, allNodesItem_eq]
      rcases List.mem_cons.1 hp with rfl | hp2
      · exact ⟨Item.mk i ty tx s a ln lv
            (specForest (rest.takeWhile (fun p => lx < p.2))) h,
          by simp, ⟨rfl, rfl, rfl, rfl, rfl, rfl⟩, rfl, rfl⟩
      · rw [← hsplit] at hp2
        rcases List.mem_append.1 hp2 with hp3 | hp3
        · obtain ⟨m, hm, hf⟩ := ih (rest.takeWhile (fun p => lx < p.2))
            (le_trans (List.takeWhile_sublist _).length_le hrlen) p hp3
          exact ⟨m, by simp [hm], hf⟩
        · obtain ⟨m, hm, hf⟩ := ih (rest.dropWhile (fun p => lx < p.2))
            (le_trans (List.dropWhile_sublist _).length_le hrlen) p hp3
          exact ⟨m, by simp [hm], hf⟩

/-- Every node survives aggregation with its core fields unchanged. -/
theorem calcAgg_mem :
    ∀ items : List Item, ∀ m ∈ allNodesF items,
      ∃ n ∈ allNodesF (calculateAggregatedStatus items), coreEq n m := by
  refine forest_ind _ (by simp [allNodesF]) ?_
  intro x xs ihc ihx
  intro m hm
  rcases x with ⟨i, ty, tx, s, a, ln, lv, cs, h⟩
  simp only [Item.children] at ihc
  rw [calculateAggregatedStatus_cons]
  rcases (show m = Item.mk i ty tx s a ln lv cs h ∨
      m ∈ allNodesF cs ∨ m ∈ allNodesF xs
      by simpa [allNodesF_cons, allNodesItem_eq] using hm) with rfl | hm2 | hm2
  · rcases cs with _ | ⟨c, cs'⟩
    · refine ⟨Item.mk i ty tx s a ln lv [] h, ?_, ⟨rfl, rfl, rfl, rfl, rfl, rfl⟩⟩
      rw [calcItem_nil, allNodesF_cons]
      simp
    · refine ⟨Item.mk i ty tx s
          (some (aggOf (collectDescendantTasks
            (Item.mk i ty tx s a ln lv (calculateAggregatedStatus (c :: cs')) h))))
          ln lv (calculateAggregatedStatus (c :: cs')) h, ?_, ⟨rfl, rfl, rfl, rfl, rfl, rfl⟩⟩
      rw [calcItem_cons, allNodesF_cons]
      simp
  · rcases cs with _ | ⟨c, cs'⟩
    · simp [allNodesF] at hm2
    · obtain ⟨n, hn, hf⟩ := ihc m hm2
      refine ⟨n, ?_, hf⟩
      rw [calcItem_cons, allNodesF_cons, allNodesItem_eq]
      simp [hn]
  · obtain ⟨n, hn, hf⟩ := ihx m hm2
    refine ⟨n, ?_, hf⟩
    rcases cs with _ | ⟨c, cs'⟩
    · rw [calcItem_nil, allNodesF_cons]
      simp [hn]
    · rw [calcItem_cons, allNodesF_cons]
      simp [hn]

/-- **C10**: the branch filter never removes a task: every `Task` item the
extractor emits appears (core fields unchanged) in the final filtered tree,
and consequently the four state-histogram counters (computed over the
post-filter tree) sum to `totalCount` (computed over the pre-filter flat
list). -/
theorem c10_no_task_dropped (tokens : List Token) (content : String) (fp : String) :
    (∀ p ∈ extractFlat fp tokens, p.1.itype = ItemType.task →
      ∃ n ∈ allNodesF (parsePlan tokens content fp).tasks, coreEq n p.1) ∧
    sum4 (parsePlan tokens content fp).stateCount =
      (parsePlan tokens content fp).totalCount := by
  have hflat := extractFlat_EmitOK fp tokens
  have htasks : (parsePlan tokens content fp).tasks =
      calculateAggregatedStatus (specPrune (specForest (extractFlat fp tokens))) := by
    show calculateAggregatedStatus
        (filterTaskBranches
          (markTaskDescendants (buildHierarchy (extractFlat fp tokens))).1) = _
    rw [(mark_filter_eq_specPrune _).2,
      c2_build_hierarchy _ (fun p hp => (hflat p hp).1)]
  constructor
  · intro p hp hptask
    obtain ⟨m, hm, hfm⟩ := specForest_mem (extractFlat fp tokens).length _ le_rfl p hp
    have hmtask : m.itype = ItemType.task := by rw [hfm.1.2.1, hptask]
    obtain ⟨n2, hn2, hfn2⟩ := specPrune_survives _ m hm (subtreeHasTask_of_task m hmtask)
    obtain ⟨n3, hn3, hfn3⟩ :=
      calcAgg_mem (specPrune (specForest (extractFlat fp tokens))) n2 hn2
    refine ⟨n3, ?_, coreEq_trans hfn3 (coreEq_trans hfn2.1 hfm.1)⟩
    rw [htasks]
    exact hn3
  · have hsc : (parsePlan tokens content fp).stateCount =
        countTasks (calculateAggregatedStatus
          (specPrune (specForest (extractFlat fp tokens)))) ⟨0, 0, 0, 0⟩ := by
      show countTasks (calculateAggregatedStatus
        (filterTaskBranches
          (markTaskDescendants (buildHierarchy (extractFlat fp tokens))).1)) ⟨0, 0, 0, 0⟩ = _
      rw [(mark_filter_eq_specPrune _).2,
        c2_build_hierarchy _ (fun p hp => (hflat p hp).1)]
    have htc : (parsePlan tokens content fp).totalCount =
        ((extractFlat fp tokens).filter (fun p => p.1.itype == ItemType.task)).length := rfl
    rw [hsc, htc, sum4_countTasks, countNodesP_calcAgg, countNodesP_specPrune,
      countNodesP_specForest (extractFlat fp tokens).length _ le_rfl]
    have hcongr : (extractFlat fp tokens).countP (fun p => isCountedTask p.1) =
        (extractFlat fp tokens).countP (fun p => p.1.itype == ItemType.task) := by
      apply List.countP_congr
      intro p hp
      have hEOK := hflat p hp
      rcases hty : (p.1.itype == ItemType.task) with _ | _
      · simp only [isCountedTask, hty, Bool.false_and]
      · have hsome : (p.1.state).isSome = true := hEOK.2.2.2.1 (by simpa using hty)
        simp only [isCountedTask, hty, Bool.true_and, hsome]
    rw [hcongr, List.countP_eq_length_filter]
    simp [sum4]

/-- Witness for **C10**: the blocked task emitted for `wTokens` appears in
the final tree, and the histogram sums to the total count. -/
theorem c10_no_task_dropped_witness :
    ((Item.mk "f.md:1" ItemType.task "Blocked thing" (some TaskState.blocked) none 1 3 []
          none, (3 : Int)) ∈ extractFlat "f.md" wTokens ∧
      (Item.mk "f.md:1" ItemType.task "Blocked thing" (some TaskState.blocked) none 1 3 []
          none, (3 : Int)).1.itype = ItemType.task) ∧
    (∃ n ∈ allNodesF (parsePlan wTokens "## Section" "f.md").tasks,
      coreEq n (Item.mk "f.md:1" ItemType.task "Blocked thing" (some TaskState.blocked) none 1 3
        [] none, (3 : Int)).1) ∧
    sum4 (parsePlan wTokens "## Section" "f.md").stateCount =
      (parsePlan wTokens "## Section" "f.md").totalCount := by
  have hp : (Item.mk "f.md:1" ItemType.task "Blocked thing" (some TaskState.blocked) none 1 3 []
      none, (3 : Int)) ∈ extractFlat "f.md" wTokens := by
    rw [show extractFlat "f.md" wTokens =
        [(Item.mk "f.md:0" ItemType.heading "Section" none none 0 2 [] none, 2),
          (Item.mk "f.md:1" ItemType.task "Blocked thing" (some TaskState.blocked) none 1 3 []
            none, 3)] from rfl]
    exact List.mem_cons_of_mem _ (List.mem_cons_self _ _)
  have h := c10_no_task_dropped wTokens "## Section" "f.md"
  exact ⟨⟨hp, rfl⟩, h.1 _ hp rfl, h.2⟩
